import Mathlib

/-!
Shallow embedding of the revenue-driver-tree core:

* `recalculate` and its helpers from `client/src/lib/tree-engine.ts`
* the visibility resolver from `useExpandCollapse`
* the Zustand history store from `client/src/stores/tree-store.ts`

Node ids are strings, as in the source.  JavaScript numbers are modelled
as rationals.  JavaScript `Map`s built from the node array are modelled by
`buildNodeMap` (insert-or-overwrite, insertion order kept), and the
unbounded `while` walks of the source are given fuel `nodes.length + 1`,
which suffices for every cycle-free collection.
-/

namespace RevTree

/-- `valueKind` in the spec, `type` in `shared/schemas/tree.ts`. -/
inductive ValueKind where
  | currency | percentage | count
deriving DecidableEq, Repr

/-- `computeType` in `shared/schemas/tree.ts` (`computeKind` in the spec). -/
inductive ComputeType where
  | input | sum | product
deriving DecidableEq, Repr

/-- One element of the flat node array (`TreeNodeSchema`). -/
structure TreeNode where
  id : String
  parentId : Option String
  name : String
  value : ℚ
  targetValue : ℚ
  type : ValueKind
  computeType : ComputeType
  pinned : Bool
  order : Int
  collapsed : Bool
deriving DecidableEq, Repr

/-- Everything of a node except its `value`: the fields `recalculate`
never writes. -/
structure NodeSkel where
  id : String
  parentId : Option String
  name : String
  targetValue : ℚ
  type : ValueKind
  computeType : ComputeType
  pinned : Bool
  order : Int
  collapsed : Bool
deriving DecidableEq, Repr

def skel (n : TreeNode) : NodeSkel :=
  ⟨n.id, n.parentId, n.name, n.targetValue, n.type, n.computeType, n.pinned, n.order, n.collapsed⟩

/-- First node carrying a given id (`Map.get` on a map with unique keys). -/
def findId (l : List TreeNode) (x : String) : Option TreeNode :=
  l.find? (fun n => n.id == x)

/-- All ids of the collection are distinct (the schema invariant). -/
def UniqueIds (l : List TreeNode) : Prop :=
  (l.map (fun n => n.id)).Nodup

instance (l : List TreeNode) : Decidable (UniqueIds l) :=
  by unfold UniqueIds; infer_instance

/-- `map.set(key, value)` on a JS `Map` represented as a keyed list:
overwrite in place when the id is present, append otherwise. -/
def mapInsert (m : List TreeNode) (n : TreeNode) : List TreeNode :=
  if m.any (fun x => x.id == n.id) then
    m.map (fun x => if x.id == n.id then n else x)
  else
    m ++ [n]

/-- `new Map(nodes.map(n => [n.id, {...n}]))` followed by
`Array.from(map.values())`: first-occurrence position, last-occurrence
payload. -/
def buildNodeMap (nodes : List TreeNode) : List TreeNode :=
  nodes.foldl mapInsert []

/-- `buildChildrenMap` restricted to one parent: ids of the nodes of the
original array whose `parentId` is that parent, in array order. -/
def childIds (nodes : List TreeNode) (pid : String) : List String :=
  (nodes.filter (fun n => n.parentId == some pid)).map (fun n => n.id)

/-- Stable insertion into a list ascending by `order`. -/
def insertByOrder (n : TreeNode) : List TreeNode → List TreeNode
  | [] => [n]
  | m :: ms => if n.order ≤ m.order then n :: m :: ms else m :: insertByOrder n ms

/-- `.sort((a, b) => a.order - b.order)` — stable ascending sort. -/
def sortByOrder (l : List TreeNode) : List TreeNode :=
  l.foldr insertByOrder []

/-- Value of one `while` iteration's recomputation: the node with its new
value, per the `computeType` dispatch of `recalculate`. -/
def recomputeNode (orig m : List TreeNode) (node : TreeNode) : TreeNode :=
  let cvals := (sortByOrder ((childIds orig node.id).filterMap (findId m))).map
    (fun c => c.value)
  if cvals.length > 0 then
    match node.computeType with
    | ComputeType.sum => { node with value := cvals.foldl (· + ·) 0 }
    | ComputeType.product => { node with value := cvals.foldl (· * ·) 1 }
    | ComputeType.input => node
  else node

/-- Overwrite the entry of `m` carrying `n.id` (mutating the map slot). -/
def mapWrite (m : List TreeNode) (n : TreeNode) : List TreeNode :=
  m.map (fun x => if x.id == n.id then n else x)

/-- The `while (currentId !== null)` walk of `recalculate`, with fuel.
`orig` is the array the children map was built from; `m` is the evolving
node map. -/
def recalcWalk (orig : List TreeNode) : Nat → List TreeNode → Option String → List TreeNode
  | 0, m, _ => m
  | _ + 1, m, none => m
  | fuel + 1, m, some cid =>
    match findId m cid with
    | none => m
    | some node =>
      if node.pinned then m
      else
        let node' := recomputeNode orig m node
        recalcWalk orig fuel (mapWrite m node') node'.parentId

/-- `recalculate(nodes, changedNodeId)` from `tree-engine.ts`. -/
def recalculate (nodes : List TreeNode) (changedNodeId : String) : List TreeNode :=
  let m := buildNodeMap nodes
  match findId m changedNodeId with
  | none => nodes
  | some changed => recalcWalk nodes (nodes.length + 1) m changed.parentId

/-- The chain of strict ancestors of `cur`'s referent, from the bottom up,
stopping at a missing node (fuel only guards cyclic collections). -/
def ancChain (nodes : List TreeNode) : Nat → Option String → List String
  | 0, _ => []
  | _ + 1, none => []
  | fuel + 1, some cid =>
    match findId nodes cid with
    | none => []
    | some n => cid :: ancChain nodes fuel n.parentId

/-- The ids the walk of `recalculate` actually rewrites: the ancestor
chain cut at the first pinned node. -/
def visitedChain (nodes : List TreeNode) : Nat → Option String → List String
  | 0, _ => []
  | _ + 1, none => []
  | fuel + 1, some cid =>
    match findId nodes cid with
    | none => []
    | some n =>
      if n.pinned then []
      else cid :: visitedChain nodes fuel n.parentId

/-- Strict ancestors of the node `changedId`, as ids. -/
def strictAncestors (nodes : List TreeNode) (changedId : String) : List String :=
  match findId nodes changedId with
  | none => []
  | some n => ancChain nodes (nodes.length + 1) n.parentId

/-- Pinned flag of the node carrying an id (`false` for a dangling id). -/
def pinnedAt (nodes : List TreeNode) (i : String) : Bool :=
  match findId nodes i with
  | none => false
  | some n => n.pinned

/-- The direct children of the node with id `x`, in array order. -/
def childrenOf (l : List TreeNode) (x : String) : List TreeNode :=
  l.filter (fun n => n.parentId == some x)

/-- Two collections agreeing on everything except node values. -/
def SameSkel (m₁ m₂ : List TreeNode) : Prop :=
  m₁.map skel = m₂.map skel

/-- The full chain `changedId :: strictAncestors …`; its `Nodup`-ness is
the cycle-freeness hypothesis the engine claims need. -/
def fullChain (nodes : List TreeNode) (changedId : String) : List String :=
  ancChain nodes (nodes.length + 1) (some changedId)

/-- Ids written by `recalculate nodes changedId`. -/
def visitedIds (nodes : List TreeNode) (changedId : String) : List String :=
  match findId nodes changedId with
  | none => []
  | some n => visitedChain nodes (nodes.length + 1) n.parentId

/-! ### Visibility resolver (`useExpandCollapse`) -/

/-- `parentMap.get(cid) ?? null`: last occurrence wins, dangling id gives
`none`. -/
def parentMapGet (nodes : List TreeNode) (cid : String) : Option String :=
  match nodes.reverse.find? (fun n => n.id == cid) with
  | none => none
  | some n => n.parentId

/-- `collapsedIds.has(cid)`. -/
def collapsedHas (nodes : List TreeNode) (cid : String) : Bool :=
  nodes.any (fun n => n.collapsed && n.id == cid)

/-- The ancestor walk of `useExpandCollapse`: `true` when some strict
ancestor is collapsed. -/
def hiddenWalk (nodes : List TreeNode) : Nat → Option String → Bool
  | 0, _ => false
  | _ + 1, none => false
  | fuel + 1, some cid =>
    if collapsedHas nodes cid then true
    else hiddenWalk nodes fuel (parentMapGet nodes cid)

/-- `useExpandCollapse(nodes)`: the set of visible node ids. -/
def computeVisible (nodes : List TreeNode) : List String :=
  (nodes.filter (fun n => !hiddenWalk nodes (nodes.length + 1) n.parentId)).map
    (fun n => n.id)

/-- `buildBranchNodeIds`: ids having at least one child. -/
def branchNodeIds (nodes : List TreeNode) : List String :=
  (nodes.filterMap (fun n => n.parentId)).dedup

/-! ### History store (`tree-store.ts`) -/

def MAX_UNDO_STACK : Nat := 50

/-- `list.slice(-k)`: the last `k` elements. -/
def takeLast (k : Nat) (l : List α) : List α :=
  (l.reverse.take k).reverse

/-- The Zustand store state (ripple-animation bookkeeping omitted: it
feeds no store field the claims mention and is cleared by a timer). -/
structure TreeState where
  nodes : List TreeNode
  selectedNodeId : Option String
  undoStack : List (List TreeNode)
  redoStack : List (List TreeNode)
deriving DecidableEq, Repr

def initialState : TreeState := ⟨[], none, [], []⟩

def setNodes (st : TreeState) (ns : List TreeNode) : TreeState :=
  { st with nodes := ns, undoStack := [], redoStack := [] }

/-- `updateNodeValue(nodeId, value)`: push snapshot (trimmed), write the
value, recalculate, clear redo — unconditionally. -/
def updateNodeValue (st : TreeState) (nodeId : String) (v : ℚ) : TreeState :=
  let newUndoStack := takeLast MAX_UNDO_STACK (st.undoStack ++ [st.nodes])
  let updatedNodes := st.nodes.map (fun n => if n.id == nodeId then { n with value := v } else n)
  let recalculated := recalculate updatedNodes nodeId
  { st with nodes := recalculated, undoStack := newUndoStack, redoStack := [] }

def togglePin (st : TreeState) (nodeId : String) : TreeState :=
  { st with nodes := st.nodes.map (fun n => if n.id == nodeId then { n with pinned := !n.pinned } else n) }

def toggleCollapse (st : TreeState) (nodeId : String) : TreeState :=
  { st with nodes := st.nodes.map (fun n => if n.id == nodeId then { n with collapsed := !n.collapsed } else n) }

def selectNode (st : TreeState) (nodeId : Option String) : TreeState :=
  { st with selectedNodeId := nodeId }

def undo (st : TreeState) : TreeState :=
  match st.undoStack.getLast? with
  | none => st
  | some prev =>
    { st with
        nodes := prev
        undoStack := st.undoStack.dropLast
        redoStack := st.redoStack ++ [st.nodes] }

def redo (st : TreeState) : TreeState :=
  match st.redoStack.getLast? with
  | none => st
  | some next =>
    { st with
        nodes := next
        undoStack := st.undoStack ++ [st.nodes]
        redoStack := st.redoStack.dropLast }

/-- The six History Manager operations of the claims. -/
inductive HistoryOp where
  | opSetNodes (ns : List TreeNode)
  | opUpdateValue (nid : String) (v : ℚ)
  | opTogglePin (nid : String)
  | opToggleCollapse (nid : String)
  | opUndo
  | opRedo

def applyOp (st : TreeState) : HistoryOp → TreeState
  | HistoryOp.opSetNodes ns => setNodes st ns
  | HistoryOp.opUpdateValue nid v => updateNodeValue st nid v
  | HistoryOp.opTogglePin nid => togglePin st nid
  | HistoryOp.opToggleCollapse nid => toggleCollapse st nid
  | HistoryOp.opUndo => undo st
  | HistoryOp.opRedo => redo st

def applyOps (ops : List HistoryOp) (st : TreeState) : TreeState :=
  ops.foldl applyOp st

/-- A sequence of value edits. -/
def applyEdits (es : List (String × ℚ)) (st : TreeState) : TreeState :=
  es.foldl (fun s e => updateNodeValue s e.1 e.2) st

/-- The node collections as they stood before each edit of the list. -/
def editTrace : List (String × ℚ) → TreeState → List (List TreeNode)
  | [], _ => []
  | e :: es, st => st.nodes :: editTrace es (updateNodeValue st e.1 e.2)

def undoN : Nat → TreeState → TreeState
  | 0, st => st
  | n + 1, st => undoN n (undo st)

/-! ### Concrete fixtures used by witnesses and counterexamples -/

/-- Shorthand constructor for concrete nodes. -/
def mkNode (i : String) (p : Option String) (v : ℚ) (ct : ComputeType)
    (pin : Bool := false) (ord : Int := 0) (col : Bool := false) : TreeNode :=
  ⟨i, p, i, v, 0, ValueKind.currency, ct, pin, ord, col⟩

def sampleA : TreeNode := mkNode "a" none 1 ComputeType.input

/-- A one-node store state. -/
def stW : TreeState := ⟨[sampleA], none, [], []⟩

/-- A store state with a non-empty redo stack. -/
def stR : TreeState := ⟨[sampleA], none, [], [[sampleA]]⟩

/-- The five-node tree of the spec's scenario section:
`root(sum) → [A(sum), B(input,5)]`, `A → [C(input,2), D(input,3)]`. -/
def demoNodes : List TreeNode :=
  [mkNode "root" none 10 ComputeType.sum,
   mkNode "A" (some "root") 5 ComputeType.sum false 0,
   mkNode "B" (some "root") 5 ComputeType.input false 1,
   mkNode "C" (some "A") 2 ComputeType.input false 0,
   mkNode "D" (some "A") 3 ComputeType.input false 1]

/-- The demo tree with `D` already set to 10, as `updateValue` would do
before invoking the engine. -/
def demoEdited : List TreeNode :=
  demoNodes.map (fun n => if n.id == "D" then { n with value := (10 : ℚ) } else n)

/-- The demo tree with `A` pinned. -/
def demoPinned : List TreeNode :=
  demoNodes.map (fun n => if n.id == "A" then { n with pinned := true } else n)

/-- The demo tree with `A` collapsed. -/
def demoCollapsed : List TreeNode :=
  demoNodes.map (fun n => if n.id == "A" then { n with collapsed := true } else n)

/-- A two-node tree whose leaf is pinned (for the pin-does-not-protect-edits
claim): `p(sum) → [q(input, pinned)]`. -/
def pinLeafNodes : List TreeNode :=
  [mkNode "p" none 3 ComputeType.sum,
   mkNode "q" (some "p") 3 ComputeType.input true 0]

def stPinLeaf : TreeState := ⟨pinLeafNodes, none, [], []⟩

/-! ### Lemmas about `takeLast` (JS `slice(-k)`) -/

theorem takeLast_length_le (k : Nat) (l : List α) : (takeLast k l).length ≤ k := by
  simp [takeLast]

theorem takeLast_of_length_le {k : Nat} {l : List α} (h : l.length ≤ k) :
    takeLast k l = l := by
  unfold takeLast
  rw [List.take_of_length_le (by simpa using h), List.reverse_reverse]

theorem takeLast_append_of_le {k : Nat} (l₁ : List α) {l₂ : List α} (h : k ≤ l₂.length) :
    takeLast k (l₁ ++ l₂) = takeLast k l₂ := by
  simp only [takeLast, List.reverse_append]
  rw [List.take_append_of_le_length (by simpa using h)]

theorem takeLast_takeLast_append (k : Nat) (l l₂ : List α) :
    takeLast k (takeLast k l ++ l₂) = takeLast k (l ++ l₂) := by
  simp only [takeLast, List.reverse_append, List.reverse_reverse,
    List.take_append_eq_append_take, List.take_take, List.length_reverse,
    List.length_take]
  congr 3
  omega

theorem getLast?_takeLast_concat {k : Nat} (hk : 1 ≤ k) (l : List α) (x : α) :
    (takeLast k (l ++ [x])).getLast? = some x := by
  obtain ⟨k', rfl⟩ : ∃ k', k = k' + 1 := ⟨k - 1, by omega⟩
  simp [takeLast, List.take_succ_cons, List.getLast?_concat]

/-! ### Store-level facts -/

theorem updateNodeValue_undoStack (st : TreeState) (nid : String) (v : ℚ) :
    (updateNodeValue st nid v).undoStack =
      takeLast MAX_UNDO_STACK (st.undoStack ++ [st.nodes]) := rfl

theorem updateNodeValue_redoStack (st : TreeState) (nid : String) (v : ℚ) :
    (updateNodeValue st nid v).redoStack = [] := rfl

theorem undo_of_concat (st : TreeState) (l : List (List TreeNode)) (x : List TreeNode)
    (h : st.undoStack = takeLast MAX_UNDO_STACK (l ++ [x])) :
    (undo st).nodes = x ∧
      (undo st).undoStack = st.undoStack.dropLast ∧
      (undo st).redoStack = st.redoStack ++ [st.nodes] := by
  have hg : st.undoStack.getLast? = some x := by
    rw [h]; exact getLast?_takeLast_concat (by norm_num [MAX_UNDO_STACK]) l x
  simp [undo, hg]

theorem redo_of_empty {st : TreeState} (h : st.redoStack = []) : redo st = st := by
  simp [redo, h]

theorem redo_of_concat (st : TreeState) (l : List (List TreeNode)) (x : List TreeNode)
    (h : st.redoStack = l ++ [x]) : (redo st).nodes = x := by
  have hg : st.redoStack.getLast? = some x := by rw [h]; exact List.getLast?_concat _
  simp [redo, hg]

/-- One undo/redo-preserved size bound: every operation keeps the two
stacks' total length within the cap. -/
def StackInv (st : TreeState) : Prop :=
  st.undoStack.length + st.redoStack.length ≤ MAX_UNDO_STACK

theorem stackInv_applyOp {st : TreeState} (h : StackInv st) (op : HistoryOp) :
    StackInv (applyOp st op) := by
  cases op with
  | opSetNodes ns => simp [StackInv, applyOp, setNodes, MAX_UNDO_STACK]
  | opUpdateValue nid v =>
    have := takeLast_length_le MAX_UNDO_STACK (st.undoStack ++ [st.nodes])
    simp only [StackInv, applyOp, updateNodeValue]
    simpa using this
  | opTogglePin nid => simpa [StackInv, applyOp, togglePin] using h
  | opToggleCollapse nid => simpa [StackInv, applyOp, toggleCollapse] using h
  | opUndo =>
    rcases hg : st.undoStack.getLast? with _ | prev
    · simpa [StackInv, applyOp, undo, hg] using h
    · have hne : st.undoStack ≠ [] := by
        intro he; rw [he] at hg; simp at hg
      have hlen : 0 < st.undoStack.length := List.length_pos.mpr hne
      simp only [StackInv, applyOp, undo, hg, List.length_dropLast, List.length_append,
        List.length_cons, List.length_nil]
      unfold StackInv at h
      omega
  | opRedo =>
    rcases hg : st.redoStack.getLast? with _ | next
    · simpa [StackInv, applyOp, redo, hg] using h
    · have hne : st.redoStack ≠ [] := by
        intro he; rw [he] at hg; simp at hg
      have hlen : 0 < st.redoStack.length := List.length_pos.mpr hne
      simp only [StackInv, applyOp, redo, hg, List.length_dropLast, List.length_append,
        List.length_cons, List.length_nil]
      unfold StackInv at h
      omega

theorem stackInv_applyOps (ops : List HistoryOp) {st : TreeState} (h : StackInv st) :
    StackInv (applyOps ops st) := by
  induction ops generalizing st with
  | nil => exact h
  | cons op ops ih => exact ih (stackInv_applyOp h op)

theorem editTrace_length (es : List (String × ℚ)) (st : TreeState) :
    (editTrace es st).length = es.length := by
  induction es generalizing st with
  | nil => rfl
  | cons e es ih => simp [editTrace, ih]

theorem applyEdits_undoStack (es : List (String × ℚ)) (st : TreeState)
    (h : st.undoStack.length ≤ MAX_UNDO_STACK) :
    (applyEdits es st).undoStack =
      takeLast MAX_UNDO_STACK (st.undoStack ++ editTrace es st) := by
  induction es generalizing st with
  | nil => simp [applyEdits, editTrace, takeLast_of_length_le h]
  | cons e es ih =>
    have h' : (updateNodeValue st e.1 e.2).undoStack.length ≤ MAX_UNDO_STACK :=
      takeLast_length_le _ _
    calc (applyEdits (e :: es) st).undoStack
        = (applyEdits es (updateNodeValue st e.1 e.2)).undoStack := rfl
      _ = takeLast MAX_UNDO_STACK ((updateNodeValue st e.1 e.2).undoStack ++
            editTrace es (updateNodeValue st e.1 e.2)) := ih _ h'
      _ = takeLast MAX_UNDO_STACK (takeLast MAX_UNDO_STACK (st.undoStack ++ [st.nodes]) ++
            editTrace es (updateNodeValue st e.1 e.2)) := rfl
      _ = takeLast MAX_UNDO_STACK ((st.undoStack ++ [st.nodes]) ++
            editTrace es (updateNodeValue st e.1 e.2)) := takeLast_takeLast_append _ _ _
      _ = takeLast MAX_UNDO_STACK (st.undoStack ++ editTrace (e :: es) st) := by
            simp [editTrace]

theorem applyEdits_redoStack (e : String × ℚ) (es : List (String × ℚ)) (st : TreeState) :
    (applyEdits (e :: es) st).redoStack = [] := by
  induction es generalizing e st with
  | nil => rfl
  | cons e' es ih => exact ih e' (updateNodeValue st e.1 e.2)

theorem undoN_full {k : Nat} :
    ∀ {st : TreeState} {x : List TreeNode} {xs : List (List TreeNode)},
      st.undoStack = x :: xs → xs.length = k → (undoN (k + 1) st).nodes = x := by
  induction k with
  | zero =>
    intro st x xs hs hl
    rw [List.length_eq_zero] at hl
    subst hl
    have hg : st.undoStack.getLast? = some x := by rw [hs]; rfl
    simp [undoN, undo, hg]
  | succ k ih =>
    intro st x xs hs hl
    have hxs : xs ≠ [] := by intro he; rw [he] at hl; simp at hl
    have hg : st.undoStack.getLast? = some (xs.getLast hxs) := by
      rw [hs, List.getLast?_eq_getLast _ (by simp), List.getLast_cons hxs]
    have hstep : undoN (k + 1 + 1) st = undoN (k + 1) (undo st) := rfl
    rw [hstep]
    have hstack : (undo st).undoStack = x :: xs.dropLast := by
      unfold undo
      rw [hg]
      simp [hs, List.dropLast_cons_of_ne_nil hxs]
    have hlen2 : xs.dropLast.length = k := by
      simp [List.length_dropLast]
      omega
    exact ih hstack hlen2

/-! ### Facts about absent ids -/

theorem mem_mapInsert {m : List TreeNode} {n x : TreeNode} (h : x ∈ mapInsert m n) :
    x ∈ m ∨ x = n := by
  unfold mapInsert at h
  split at h
  · rcases List.mem_map.mp h with ⟨y, hy, he⟩
    by_cases hc : (y.id == n.id) = true
    · right; rw [← he]; simp [hc]
    · left; rw [← he]; simp [hc]; exact hy
  · rcases List.mem_append.mp h with hy | hy
    · left; exact hy
    · right; simpa using hy

theorem mem_buildNodeMap {nodes : List TreeNode} {x : TreeNode}
    (h : x ∈ buildNodeMap nodes) : x ∈ nodes := by
  suffices H : ∀ (l acc : List TreeNode), x ∈ l.foldl mapInsert acc → x ∈ acc ∨ x ∈ l by
    rcases H nodes [] h with h' | h'
    · simp at h'
    · exact h'
  intro l
  induction l with
  | nil => intro acc h'; exact Or.inl h'
  | cons n l ih =>
    intro acc h'
    rcases ih (mapInsert acc n) h' with h'' | h''
    · rcases mem_mapInsert h'' with h3 | h3
      · exact Or.inl h3
      · exact Or.inr (by simp [h3])
    · exact Or.inr (List.mem_cons_of_mem _ h'')

theorem findId_buildNodeMap_none {nodes : List TreeNode} {nid : String}
    (h : ∀ n ∈ nodes, n.id ≠ nid) : findId (buildNodeMap nodes) nid = none := by
  rcases hf : findId (buildNodeMap nodes) nid with _ | n
  · rfl
  · exfalso
    have hf' : List.find? (fun m => m.id == nid) (buildNodeMap nodes) = some n := hf
    have h1 := List.find?_some hf'
    have h2 : n ∈ buildNodeMap nodes := List.mem_of_find?_eq_some hf'
    exact h n (mem_buildNodeMap h2) (by simpa using h1)

/-- `recalculate` with an id absent from the collection returns its input
unchanged (`if (!changedNode) return nodes`). -/
theorem recalculate_absent {nodes : List TreeNode} {nid : String}
    (h : ∀ n ∈ nodes, n.id ≠ nid) : recalculate nodes nid = nodes := by
  unfold recalculate
  simp only [findId_buildNodeMap_none h]

theorem map_update_absent {nodes : List TreeNode} {nid : String}
    (h : ∀ n ∈ nodes, n.id ≠ nid) (f : TreeNode → TreeNode) :
    nodes.map (fun n => if n.id == nid then f n else n) = nodes := by
  have : nodes.map (fun n => if n.id == nid then f n else n) = nodes.map id := by
    refine List.map_congr_left ?_
    intro a ha
    have : (a.id == nid) = false := by simpa using h a ha
    simp [this]
  simpa using this

/-! ### Claim C4: undo/redo round-trips around a value edit -/

/-- Claim C4: immediately after `updateValue(nodeId, v)`, `undo` restores
the exact pre-edit collection; `redo` right after that `undo` restores the
post-edit collection; and an `updateValue` performed after an `undo`
clears the redo stack, so a subsequent `redo` is a no-op. -/
theorem claim_C4 (st : TreeState) (nid : String) (v : ℚ)
    (h : nid ∈ st.nodes.map (fun n => n.id)) :
    (undo (updateNodeValue st nid v)).nodes = st.nodes ∧
    (redo (undo (updateNodeValue st nid v))).nodes = (updateNodeValue st nid v).nodes ∧
    ∀ (nid2 : String) (v2 : ℚ),
      (updateNodeValue (undo (updateNodeValue st nid v)) nid2 v2).redoStack = [] ∧
      redo (updateNodeValue (undo (updateNodeValue st nid v)) nid2 v2) =
        updateNodeValue (undo (updateNodeValue st nid v)) nid2 v2 := by
  obtain ⟨h1, _, h3⟩ :=
    undo_of_concat (updateNodeValue st nid v) st.undoStack st.nodes rfl
  refine ⟨h1, ?_, ?_⟩
  · refine redo_of_concat _ [] _ ?_
    rw [h3]
    rfl
  · intro nid2 v2
    exact ⟨rfl, redo_of_empty rfl⟩

theorem claim_C4_witness :
    "a" ∈ stW.nodes.map (fun n => n.id) ∧
    (undo (updateNodeValue stW "a" 7)).nodes = stW.nodes :=
  ⟨by decide, (claim_C4 stW "a" 7 (by decide)).1⟩

/-! ### Claim C5: the undo stack is bounded by 50 and evicts oldest-first -/

/-- Claim C5: starting from the initial state, no sequence of the six
History Manager operations ever grows the undo stack past 50 entries; and
after 51 sequential edits whose first edit changes the collection,
50 undos land on a state that is not the pre-edit-1 collection (the
oldest snapshot was evicted). -/
theorem claim_C5 :
    (∀ ops : List HistoryOp, (applyOps ops initialState).undoStack.length ≤ MAX_UNDO_STACK) ∧
    ∀ (st : TreeState) (e : String × ℚ) (es : List (String × ℚ)),
      es.length = 50 →
      (updateNodeValue st e.1 e.2).nodes ≠ st.nodes →
      (undoN 50 (applyEdits es (updateNodeValue st e.1 e.2))).nodes ≠ st.nodes := by
  constructor
  · intro ops
    have h0 : StackInv initialState := by simp [StackInv, initialState]
    have h1 := stackInv_applyOps ops h0
    unfold StackInv at h1
    omega
  · intro st e es hlen hne
    set st₁ := updateNodeValue st e.1 e.2 with hst₁
    have h50 : st₁.undoStack.length ≤ MAX_UNDO_STACK := takeLast_length_le _ _
    have hU : (applyEdits es st₁).undoStack =
        takeLast MAX_UNDO_STACK (st₁.undoStack ++ editTrace es st₁) :=
      applyEdits_undoStack es st₁ h50
    have hU1 : st₁.undoStack = takeLast MAX_UNDO_STACK (st.undoStack ++ [st.nodes]) := rfl
    rw [hU1, takeLast_takeLast_append, List.append_assoc,
      takeLast_append_of_le st.undoStack
        (by simp [editTrace_length, hlen, MAX_UNDO_STACK]),
      takeLast_append_of_le [st.nodes]
        (by simp [editTrace_length, hlen, MAX_UNDO_STACK]),
      takeLast_of_length_le (by simp [editTrace_length, hlen, MAX_UNDO_STACK])] at hU
    cases es with
    | nil => simp at hlen
    | cons e' es' =>
      have htr : editTrace (e' :: es') st₁ =
          st₁.nodes :: editTrace es' (updateNodeValue st₁ e'.1 e'.2) := rfl
      have hlen' : (editTrace es' (updateNodeValue st₁ e'.1 e'.2)).length = 49 := by
        rw [editTrace_length]
        simpa using hlen
      have hfin : (undoN 50 (applyEdits (e' :: es') st₁)).nodes = st₁.nodes := by
        refine undoN_full (k := 49) ?_ hlen'
        rw [hU, htr]
      rw [hfin]
      exact hne

theorem claim_C5_witness :
    (List.replicate 50 (("a" : String), (2 : ℚ))).length = 50 ∧
    (updateNodeValue stW "a" 7).nodes ≠ stW.nodes ∧
    (undoN 50 (applyEdits (List.replicate 50 ("a", 2)) (updateNodeValue stW "a" 7))).nodes ≠
      stW.nodes :=
  ⟨by decide, by decide,
    claim_C5.2 stW ("a", 7) (List.replicate 50 ("a", 2)) (by decide) (by decide)⟩

/-! ### Claim C7: updateValue with an absent id — corrected -/

/-- Claim C7 as stated is false: with an absent `nodeId`, `updateNodeValue`
still pushes a snapshot onto the undo stack and clears the redo stack.
Concretely, from a state with an empty undo stack and a one-entry redo
stack, both stacks change. -/
theorem claim_C7_counterexample :
    ¬ ((updateNodeValue stR "zzz" 1).undoStack = stR.undoStack ∧
       (updateNodeValue stR "zzz" 1).redoStack = stR.redoStack) := by
  decide

/-- Claim C7 amended: for a `nodeId` absent from the collection,
`updateValue` leaves the canonical node collection unchanged and raises no
error, but it still pushes a snapshot of the unchanged collection onto the
undo stack (trimmed to the cap) and clears the redo stack. -/
theorem claim_C7_amended (st : TreeState) (nid : String) (v : ℚ)
    (h : ∀ n ∈ st.nodes, n.id ≠ nid) :
    (updateNodeValue st nid v).nodes = st.nodes ∧
    (updateNodeValue st nid v).undoStack =
      takeLast MAX_UNDO_STACK (st.undoStack ++ [st.nodes]) ∧
    (updateNodeValue st nid v).redoStack = [] := by
  refine ⟨?_, rfl, rfl⟩
  show recalculate (st.nodes.map (fun n => if n.id == nid then { n with value := v } else n))
      nid = st.nodes
  rw [map_update_absent h]
  exact recalculate_absent h

theorem claim_C7_amended_witness :
    (∀ n ∈ stW.nodes, n.id ≠ "zzz") ∧ (updateNodeValue stW "zzz" 1).nodes = stW.nodes :=
  ⟨by decide, (claim_C7_amended stW "zzz" 1 (by decide)).1⟩

/-! ### Claim C8: pin/collapse toggles touch one flag and bypass history -/

/-- Claim C8: `togglePin nodeId` (resp. `toggleCollapse nodeId`) flips
only the `pinned` (resp. `collapsed`) boolean of the node carrying that
id, keeps every other node and every other field (in particular no value
is recalculated), and leaves both history stacks untouched. -/
theorem claim_C8 (st : TreeState) (nid : String) (n : TreeNode) (hn : n ∈ st.nodes) :
    (togglePin st nid).undoStack = st.undoStack ∧
    (togglePin st nid).redoStack = st.redoStack ∧
    (toggleCollapse st nid).undoStack = st.undoStack ∧
    (toggleCollapse st nid).redoStack = st.redoStack ∧
    (togglePin st nid).nodes.length = st.nodes.length ∧
    (toggleCollapse st nid).nodes.length = st.nodes.length ∧
    (n.id ≠ nid → n ∈ (togglePin st nid).nodes ∧ n ∈ (toggleCollapse st nid).nodes) ∧
    (n.id = nid →
      { n with pinned := !n.pinned } ∈ (togglePin st nid).nodes ∧
      { n with collapsed := !n.collapsed } ∈ (toggleCollapse st nid).nodes) := by
  refine ⟨rfl, rfl, rfl, rfl, by simp [togglePin], by simp [toggleCollapse], ?_, ?_⟩
  · intro hne
    have hb : (n.id == nid) = false := by simpa using hne
    constructor
    · have h1 := List.mem_map_of_mem
        (fun x => if x.id == nid then { x with pinned := !x.pinned } else x) hn
      simpa [togglePin, hb] using h1
    · have h1 := List.mem_map_of_mem
        (fun x => if x.id == nid then { x with collapsed := !x.collapsed } else x) hn
      simpa [toggleCollapse, hb] using h1
  · intro heq
    have hb : (n.id == nid) = true := by simpa using heq
    constructor
    · have h1 := List.mem_map_of_mem
        (fun x => if x.id == nid then { x with pinned := !x.pinned } else x) hn
      simpa [togglePin, hb] using h1
    · have h1 := List.mem_map_of_mem
        (fun x => if x.id == nid then { x with collapsed := !x.collapsed } else x) hn
      simpa [toggleCollapse, hb] using h1

theorem claim_C8_witness :
    sampleA ∈ stW.nodes ∧ (togglePin stW "a").undoStack = stW.undoStack :=
  ⟨by decide, (claim_C8 stW "a" sampleA (by decide)).1⟩

/-! ### Claim C10: undo snapshots also revert later pin/collapse toggles -/

/-- Claim C10: after `updateValue(n, v)` followed by `togglePin(m)` (or
`toggleCollapse(m)`), a single `undo` restores exactly the collection from
before the `updateValue`, so the toggle is reverted too even though it was
never recorded as a history entry. -/
theorem claim_C10 (st : TreeState) (nid m : String) (v : ℚ) :
    (undo (togglePin (updateNodeValue st nid v) m)).nodes = st.nodes ∧
    (undo (toggleCollapse (updateNodeValue st nid v) m)).nodes = st.nodes := by
  constructor
  · exact (undo_of_concat (togglePin (updateNodeValue st nid v) m)
      st.undoStack st.nodes rfl).1
  · exact (undo_of_concat (toggleCollapse (updateNodeValue st nid v) m)
      st.undoStack st.nodes rfl).1

/-! ### Basic facts about `findId`, `skel`, and `mapWrite` -/

theorem findId_mem {m : List TreeNode} {x : String} {n : TreeNode}
    (h : findId m x = some n) : n ∈ m ∧ n.id = x := by
  have h' : List.find? (fun q => q.id == x) m = some n := h
  exact ⟨List.mem_of_find?_eq_some h', by simpa using List.find?_some h'⟩

theorem findId_of_mem {m : List TreeNode} (hu : UniqueIds m) {n : TreeNode}
    (hn : n ∈ m) : findId m n.id = some n := by
  rcases hf : findId m n.id with _ | d
  · have h' : List.find? (fun q => q.id == n.id) m = none := hf
    rw [List.find?_eq_none] at h'
    exact absurd (by simp) (h' n hn)
  · obtain ⟨hdm, hdi⟩ := findId_mem hf
    have := List.inj_on_of_nodup_map hu hdm hn hdi
    rw [this]

theorem skel_id {n₁ n₂ : TreeNode} (h : skel n₁ = skel n₂) : n₁.id = n₂.id :=
  congrArg NodeSkel.id h

theorem skel_parentId {n₁ n₂ : TreeNode} (h : skel n₁ = skel n₂) :
    n₁.parentId = n₂.parentId :=
  congrArg NodeSkel.parentId h

theorem skel_pinned {n₁ n₂ : TreeNode} (h : skel n₁ = skel n₂) : n₁.pinned = n₂.pinned :=
  congrArg NodeSkel.pinned h

theorem skel_computeType {n₁ n₂ : TreeNode} (h : skel n₁ = skel n₂) :
    n₁.computeType = n₂.computeType :=
  congrArg NodeSkel.computeType h

theorem skel_collapsed {n₁ n₂ : TreeNode} (h : skel n₁ = skel n₂) :
    n₁.collapsed = n₂.collapsed :=
  congrArg NodeSkel.collapsed h

theorem findId_skel_cases {m₁ m₂ : List TreeNode} (h : SameSkel m₁ m₂) (x : String) :
    (findId m₁ x = none ∧ findId m₂ x = none) ∨
      ∃ n₁ n₂, findId m₁ x = some n₁ ∧ findId m₂ x = some n₂ ∧ skel n₁ = skel n₂ := by
  have key : (findId m₁ x).map skel = (findId m₂ x).map skel := by
    have h₁ : List.find? (fun s => s.id == x) (m₁.map skel) =
        List.find? (fun s => s.id == x) (m₂.map skel) := by rw [h]
    rwa [List.find?_map, List.find?_map] at h₁
  rcases h₁ : findId m₁ x with _ | n₁ <;> rcases h₂ : findId m₂ x with _ | n₂ <;>
    rw [h₁, h₂] at key <;> simp at key
  · exact Or.inl ⟨rfl, rfl⟩
  · exact Or.inr ⟨n₁, n₂, rfl, rfl, key⟩

theorem uniqueIds_congr {m₁ m₂ : List TreeNode} (h : SameSkel m₁ m₂) :
    UniqueIds m₁ ↔ UniqueIds m₂ := by
  have hids : m₁.map (fun n => n.id) = m₂.map (fun n => n.id) := by
    have h₁ : (m₁.map skel).map NodeSkel.id = (m₂.map skel).map NodeSkel.id := by rw [h]
    simpa [List.map_map, Function.comp] using h₁
  unfold UniqueIds
  rw [hids]

theorem ids_mapWrite (m : List TreeNode) (n' : TreeNode) :
    (mapWrite m n').map (fun n => n.id) = m.map (fun n => n.id) := by
  unfold mapWrite
  rw [List.map_map]
  refine List.map_congr_left ?_
  intro x _
  by_cases hc : (x.id == n'.id) = true
  · simp only [Function.comp]
    rw [if_pos hc]
    exact (beq_iff_eq.mp hc).symm
  · simp only [Function.comp]
    rw [if_neg hc]

theorem skel_recomputeNode (orig m : List TreeNode) (node : TreeNode) :
    skel (recomputeNode orig m node) = skel node := by
  rcases node with ⟨i, p, nm, v, tv, ty, ct, pin, od, col⟩
  cases ct <;> unfold recomputeNode <;> dsimp <;> split <;> rfl

theorem sameSkel_mapWrite {m : List TreeNode} (hu : UniqueIds m) {cid : String}
    {node n' : TreeNode} (hfind : findId m cid = some node) (hsk : skel n' = skel node) :
    SameSkel (mapWrite m n') m := by
  obtain ⟨hmem, hid⟩ := findId_mem hfind
  unfold SameSkel mapWrite
  rw [List.map_map]
  refine List.map_congr_left ?_
  intro x hx
  by_cases hc : (x.id == n'.id) = true
  · have hxi : x.id = n'.id := beq_iff_eq.mp hc
    have hxnode : x = node := by
      refine List.inj_on_of_nodup_map hu hx hmem ?_
      rw [hxi, skel_id hsk]
    simp only [Function.comp]
    rw [if_pos hc, hsk, hxnode]
  · simp only [Function.comp]
    rw [if_neg hc]

theorem findId_mapWrite_ne {m : List TreeNode} {n' : TreeNode} {x : String}
    (hne : n'.id ≠ x) : findId (mapWrite m n') x = findId m x := by
  induction m with
  | nil => rfl
  | cons y t ih =>
    show List.find? (fun q => q.id == x) ((if y.id == n'.id then n' else y) :: mapWrite t n') =
      List.find? (fun q => q.id == x) (y :: t)
    by_cases hc : (y.id == n'.id) = true
    · have hyid : y.id = n'.id := beq_iff_eq.mp hc
      rw [if_pos hc]
      rw [List.find?_cons_of_neg _ (by simp [hne]),
        List.find?_cons_of_neg _ (by simp [hyid, hne])]
      exact ih
    · rw [if_neg hc]
      by_cases hyx : (y.id == x) = true
      · rw [List.find?_cons_of_pos _ (by simpa using hyx),
          List.find?_cons_of_pos _ (by simpa using hyx)]
      · rw [List.find?_cons_of_neg _ (by simpa using hyx),
          List.find?_cons_of_neg _ (by simpa using hyx)]
        exact ih

theorem findId_mapWrite_self {m : List TreeNode} {cid : String} {node n' : TreeNode}
    (hfind : findId m cid = some node) (hid : n'.id = cid) :
    findId (mapWrite m n') cid = some n' := by
  induction m with
  | nil => simp [findId] at hfind
  | cons y t ih =>
    show List.find? (fun q => q.id == cid) ((if y.id == n'.id then n' else y) :: mapWrite t n') =
      some n'
    by_cases hyc : (y.id == cid) = true
    · have hyn' : (y.id == n'.id) = true := by simp [hid, beq_iff_eq.mp hyc]
      rw [if_pos hyn', List.find?_cons_of_pos _ (by simp [hid])]
    · have h' : List.find? (fun q => q.id == cid) (y :: t) = some node := hfind
      rw [List.find?_cons_of_neg _ (by simpa using hyc)] at h'
      have hyn' : (y.id == n'.id) = false := by
        by_contra hb
        have hb' : (y.id == n'.id) = true := by
          cases hq : (y.id == n'.id) with
          | false => exact absurd hq hb
          | true => rfl
        exact hyc (by simp [beq_iff_eq.mp hb', hid])
      rw [if_neg (by simp [hyn']), List.find?_cons_of_neg _ (by simpa using hyc)]
      exact ih h'

/-! ### Chain lemmas -/

theorem ancChain_congr {m₁ m₂ : List TreeNode} (h : SameSkel m₁ m₂) :
    ∀ (fuel : Nat) (cur : Option String), ancChain m₁ fuel cur = ancChain m₂ fuel cur := by
  intro fuel
  induction fuel with
  | zero => intro cur; rfl
  | succ fuel ih =>
    intro cur
    cases cur with
    | none => rfl
    | some cid =>
      rcases findId_skel_cases h cid with ⟨h1, h2⟩ | ⟨n₁, n₂, h1, h2, hsk⟩
      · simp [ancChain, h1, h2]
      · simp [ancChain, h1, h2, skel_parentId hsk, ih]

theorem visitedChain_congr {m₁ m₂ : List TreeNode} (h : SameSkel m₁ m₂) :
    ∀ (fuel : Nat) (cur : Option String), visitedChain m₁ fuel cur = visitedChain m₂ fuel cur := by
  intro fuel
  induction fuel with
  | zero => intro cur; rfl
  | succ fuel ih =>
    intro cur
    cases cur with
    | none => rfl
    | some cid =>
      rcases findId_skel_cases h cid with ⟨h1, h2⟩ | ⟨n₁, n₂, h1, h2, hsk⟩
      · simp [visitedChain, h1, h2]
      · simp [visitedChain, h1, h2, skel_parentId hsk, skel_pinned hsk, ih]

theorem visitedChain_eq_takeWhile (m : List TreeNode) :
    ∀ (fuel : Nat) (cur : Option String),
      visitedChain m fuel cur = (ancChain m fuel cur).takeWhile (fun i => !(pinnedAt m i)) := by
  intro fuel
  induction fuel with
  | zero => intro cur; rfl
  | succ fuel ih =>
    intro cur
    cases cur with
    | none => rfl
    | some cid =>
      rcases hf : findId m cid with _ | n
      · simp [visitedChain, ancChain, hf]
      · rcases hp : n.pinned with _ | _
        · simp [visitedChain, ancChain, hf, hp, pinnedAt, ih]
        · simp [visitedChain, ancChain, hf, hp, pinnedAt]

theorem ancChain_subset_ids (m : List TreeNode) :
    ∀ (fuel : Nat) (cur : Option String) (x : String),
      x ∈ ancChain m fuel cur → x ∈ m.map (fun n => n.id) := by
  intro fuel
  induction fuel with
  | zero => intro cur x hx; simp [ancChain] at hx
  | succ fuel ih =>
    intro cur x hx
    cases cur with
    | none => simp [ancChain] at hx
    | some cid =>
      rcases hf : findId m cid with _ | n
      · rw [show ancChain m (fuel + 1) (some cid) = [] from by simp [ancChain, hf]] at hx
        simp at hx
      · rw [show ancChain m (fuel + 1) (some cid) = cid :: ancChain m fuel n.parentId from by
          simp [ancChain, hf]] at hx
        rcases List.mem_cons.mp hx with rfl | h'
        · obtain ⟨hm, hi⟩ := findId_mem hf
          rw [← hi]
          exact List.mem_map_of_mem _ hm
        · exact ih _ _ h'

theorem ancChain_length_le {m : List TreeNode} {fuel : Nat} {cur : Option String}
    (hnd : (ancChain m fuel cur).Nodup) : (ancChain m fuel cur).length ≤ m.length := by
  have hsub : ancChain m fuel cur ⊆ m.map (fun n => n.id) := fun x hx =>
    ancChain_subset_ids m fuel cur x hx
  have h1 := (List.subperm_of_subset hnd hsub).length_le
  simpa using h1

theorem ancChain_stable {m : List TreeNode} :
    ∀ {fuel₁ fuel₂ : Nat} {c : Option String},
      (ancChain m fuel₁ c).length < fuel₁ → fuel₁ ≤ fuel₂ →
      ancChain m fuel₂ c = ancChain m fuel₁ c := by
  intro fuel₁
  induction fuel₁ with
  | zero => intro fuel₂ c h _; simp [ancChain] at h
  | succ fuel₁ ih =>
    intro fuel₂ c h hle
    obtain ⟨f₂, rfl⟩ : ∃ f₂, fuel₂ = f₂ + 1 := ⟨fuel₂ - 1, by omega⟩
    cases c with
    | none => rfl
    | some cid =>
      rcases hf : findId m cid with _ | n
      · simp [ancChain, hf]
      · have h' : (ancChain m fuel₁ n.parentId).length < fuel₁ := by
          rw [show ancChain m (fuel₁ + 1) (some cid) = cid :: ancChain m fuel₁ n.parentId from by
            simp [ancChain, hf]] at h
          simpa using Nat.lt_of_succ_lt_succ h
        have hrec : ancChain m f₂ n.parentId = ancChain m fuel₁ n.parentId :=
          ih h' (by omega)
        simp [ancChain, hf, hrec]

theorem ancChain_closed {m : List TreeNode} :
    ∀ {fuel : Nat} {c : Option String},
      (ancChain m fuel c).length < fuel →
      ∀ x ∈ ancChain m fuel c, ∀ nx, findId m x = some nx →
        ∀ p np, nx.parentId = some p → findId m p = some np →
          p ∈ ancChain m fuel c := by
  intro fuel
  induction fuel with
  | zero => intro c h; simp [ancChain] at h
  | succ fuel ih =>
    intro c h x hx nx hnx p np hp hnp
    cases c with
    | none => simp [ancChain] at hx
    | some cid =>
      rcases hf : findId m cid with _ | n
      · rw [show ancChain m (fuel + 1) (some cid) = [] from by simp [ancChain, hf]] at hx
        simp at hx
      · have hchain : ancChain m (fuel + 1) (some cid) = cid :: ancChain m fuel n.parentId := by
          simp [ancChain, hf]
        rw [hchain] at hx h ⊢
        have hlen : (ancChain m fuel n.parentId).length < fuel := by
          simpa using Nat.lt_of_succ_lt_succ h
        rcases List.mem_cons.mp hx with rfl | hx'
        · have hnxn : nx = n := by
            rw [hnx] at hf
            exact (Option.some.injEq _ _).mp hf.symm |>.symm
          subst hnxn
          obtain ⟨f', rfl⟩ : ∃ f', fuel = f' + 1 := ⟨fuel - 1, by omega⟩
          refine List.mem_cons_of_mem _ ?_
          rw [hp, show ancChain m (f' + 1) (some p) =
            p :: ancChain m f' np.parentId from by simp [ancChain, hnp]]
          exact List.mem_cons_self _ _
        · exact List.mem_cons_of_mem _ (ih hlen x hx' nx hnx p np hp hnp)

theorem mem_visitedChain {m : List TreeNode} {fuel : Nat} {cur : Option String} {x : String}
    (h : x ∈ visitedChain m fuel cur) :
    x ∈ ancChain m fuel cur ∧ pinnedAt m x = false := by
  rw [visitedChain_eq_takeWhile] at h
  refine ⟨List.takeWhile_subset _ h, ?_⟩
  have := List.mem_takeWhile_imp h
  simpa using this

/-! ### Walk lemmas -/

theorem uniqueIds_mapWrite {m : List TreeNode} (hu : UniqueIds m) (n' : TreeNode) :
    UniqueIds (mapWrite m n') := by
  unfold UniqueIds
  rw [ids_mapWrite]
  exact hu

theorem sameSkel_recalcWalk (orig : List TreeNode) :
    ∀ (fuel : Nat) (m : List TreeNode) (cur : Option String), UniqueIds m →
      SameSkel (recalcWalk orig fuel m cur) m := by
  intro fuel
  induction fuel with
  | zero => intro m cur _; rfl
  | succ fuel ih =>
    intro m cur hu
    cases cur with
    | none => rfl
    | some cid =>
      rcases hf : findId m cid with _ | node
      · show SameSkel (recalcWalk orig (fuel + 1) m (some cid)) m
        simp only [recalcWalk, hf]
        rfl
      · rcases hp : node.pinned with _ | _
        · show SameSkel (recalcWalk orig (fuel + 1) m (some cid)) m
          simp only [recalcWalk, hf, hp]
          have hskn : skel (recomputeNode orig m node) = skel node := skel_recomputeNode orig m node
          have hss' : SameSkel (mapWrite m (recomputeNode orig m node)) m :=
            sameSkel_mapWrite hu hf hskn
          exact (ih (mapWrite m (recomputeNode orig m node)) _
            (uniqueIds_mapWrite hu _)).trans hss'
        · show SameSkel (recalcWalk orig (fuel + 1) m (some cid)) m
          simp only [recalcWalk, hf, hp]
          rfl

theorem uniqueIds_recalcWalk {orig : List TreeNode} {fuel : Nat} {m : List TreeNode}
    {cur : Option String} (hu : UniqueIds m) : UniqueIds (recalcWalk orig fuel m cur) :=
  (uniqueIds_congr (sameSkel_recalcWalk orig fuel m cur hu)).mpr hu

theorem recalcWalk_step {orig m : List TreeNode} {fuel : Nat} {cid : String} {node : TreeNode}
    (hf : findId m cid = some node) (hp : node.pinned = false) :
    recalcWalk orig (fuel + 1) m (some cid) =
      recalcWalk orig fuel (mapWrite m (recomputeNode orig m node))
        (recomputeNode orig m node).parentId := by
  simp only [recalcWalk, hf]
  rw [if_neg (by simp [hp])]

theorem recalcWalk_stop_pinned {orig m : List TreeNode} {fuel : Nat} {cid : String}
    {node : TreeNode} (hf : findId m cid = some node) (hp : node.pinned = true) :
    recalcWalk orig (fuel + 1) m (some cid) = m := by
  simp only [recalcWalk, hf]
  rw [if_pos hp]

theorem recalcWalk_frame (orig : List TreeNode) :
    ∀ (fuel : Nat) (m : List TreeNode) (cur : Option String) (x : String), UniqueIds m →
      x ∉ visitedChain m fuel cur →
      findId (recalcWalk orig fuel m cur) x = findId m x := by
  intro fuel
  induction fuel with
  | zero => intro m cur x _ _; rfl
  | succ fuel ih =>
    intro m cur x hu hx
    cases cur with
    | none => rfl
    | some cid =>
      rcases hf : findId m cid with _ | node
      · show findId (recalcWalk orig (fuel + 1) m (some cid)) x = findId m x
        simp only [recalcWalk, hf]
      · rcases hp : node.pinned with _ | _
        · rw [show visitedChain m (fuel + 1) (some cid) =
            cid :: visitedChain m fuel node.parentId from by simp [visitedChain, hf, hp]] at hx
          have hxcid : x ≠ cid := fun he => hx (he ▸ List.mem_cons_self _ _)
          have hxtail : x ∉ visitedChain m fuel node.parentId :=
            fun hm => hx (List.mem_cons_of_mem _ hm)
          have hskn : skel (recomputeNode orig m node) = skel node := skel_recomputeNode orig m node
          have hid' : (recomputeNode orig m node).id = cid := (skel_id hskn).trans (findId_mem hf).2
          have hss' : SameSkel (mapWrite m (recomputeNode orig m node)) m :=
            sameSkel_mapWrite hu hf hskn
          have hxtail' : x ∉ visitedChain (mapWrite m (recomputeNode orig m node)) fuel
              (recomputeNode orig m node).parentId := by
            rw [visitedChain_congr hss', skel_parentId hskn]
            exact hxtail
          rw [recalcWalk_step hf hp,
            ih (mapWrite m (recomputeNode orig m node)) (recomputeNode orig m node).parentId x
              (uniqueIds_mapWrite hu _) hxtail']
          exact findId_mapWrite_ne (by rw [hid']; exact hxcid.symm)
        · rw [recalcWalk_stop_pinned hf hp]

/-! ### Sorting and folding bridges -/

theorem insertByOrder_perm (n : TreeNode) :
    ∀ l : List TreeNode, List.Perm (insertByOrder n l) (n :: l)
  | [] => List.Perm.refl _
  | m :: ms => by
    unfold insertByOrder
    split
    · exact List.Perm.refl _
    · exact (List.Perm.cons m (insertByOrder_perm n ms)).trans (List.Perm.swap n m ms)

theorem sortByOrder_perm : ∀ l : List TreeNode, List.Perm (sortByOrder l) l
  | [] => List.Perm.refl _
  | x :: l => by
    show List.Perm (insertByOrder x (sortByOrder l)) (x :: l)
    exact (insertByOrder_perm x (sortByOrder l)).trans (List.Perm.cons x (sortByOrder_perm l))

theorem foldl_add_eq (l : List ℚ) : ∀ a : ℚ, l.foldl (· + ·) a = a + l.sum := by
  induction l with
  | nil => intro a; simp
  | cons x t ih => intro a; simp [ih, add_assoc]

theorem foldl_mul_eq (l : List ℚ) : ∀ a : ℚ, l.foldl (· * ·) a = a * l.prod := by
  induction l with
  | nil => intro a; simp
  | cons x t ih => intro a; simp [ih, mul_assoc]

/-! ### Children bridges -/

theorem childIds_viaskel (l : List TreeNode) (x : String) :
    ((l.map skel).filter (fun s => s.parentId == some x)).map NodeSkel.id = childIds l x := by
  rw [List.filter_map, List.map_map]
  unfold childIds
  rw [List.filter_congr (fun a _ => (rfl :
    ((fun s => s.parentId == some x) ∘ skel) a = (fun n => n.parentId == some x) a))]
  exact List.map_congr_left (fun a _ => rfl)

theorem childIds_congr {m₁ m₂ : List TreeNode} (h : SameSkel m₁ m₂) (x : String) :
    childIds m₁ x = childIds m₂ x := by
  rw [← childIds_viaskel m₁ x, ← childIds_viaskel m₂ x, h]

theorem filterMap_findId_self {m : List TreeNode} (hu : UniqueIds m) :
    ∀ {l : List TreeNode}, (∀ c ∈ l, c ∈ m) →
      (l.map (fun c => c.id)).filterMap (findId m) = l := by
  intro l
  induction l with
  | nil => intro _; rfl
  | cons c t ih =>
    intro hsub
    have hc : findId m c.id = some c := findId_of_mem hu (hsub c (List.mem_cons_self _ _))
    show List.filterMap (findId m) (c.id :: t.map (fun c => c.id)) = c :: t
    rw [List.filterMap_cons, hc, ih (fun d hd => hsub d (List.mem_cons_of_mem _ hd))]

theorem childLookup_eq {m orig : List TreeNode} (hu : UniqueIds m) (hss : SameSkel m orig)
    (x : String) : (childIds orig x).filterMap (findId m) = childrenOf m x := by
  rw [childIds_congr hss.symm x]
  have h1 : childIds m x = (childrenOf m x).map (fun c => c.id) := rfl
  rw [h1]
  exact filterMap_findId_self hu (fun c hc => List.mem_of_mem_filter hc)

/-! ### recomputeNode value lemmas -/

theorem recomputeNode_of_empty {orig m : List TreeNode} {node : TreeNode}
    (h : (childIds orig node.id).filterMap (findId m) = []) :
    recomputeNode orig m node = node := by
  unfold recomputeNode
  rw [h]
  rfl

theorem recomputeNode_value_sum {orig m : List TreeNode} {node : TreeNode}
    (hct : node.computeType = ComputeType.sum)
    (hne : (childIds orig node.id).filterMap (findId m) ≠ []) :
    (recomputeNode orig m node).value =
      (((childIds orig node.id).filterMap (findId m)).map (fun c => c.value)).sum := by
  have hlen : ((sortByOrder ((childIds orig node.id).filterMap (findId m))).map
      (fun c => c.value)).length > 0 := by
    have hperm := sortByOrder_perm ((childIds orig node.id).filterMap (findId m))
    rw [List.length_map, hperm.length_eq]
    exact List.length_pos.mpr hne
  unfold recomputeNode
  dsimp only
  rw [if_pos hlen]
  have hperm := (sortByOrder_perm ((childIds orig node.id).filterMap (findId m))).map
    (fun c => c.value)
  split <;> rename_i hmatch <;> rw [hct] at hmatch
  · dsimp only
    rw [foldl_add_eq, zero_add]
    exact hperm.sum_eq
  · cases hmatch
  · cases hmatch

theorem recomputeNode_value_prod {orig m : List TreeNode} {node : TreeNode}
    (hct : node.computeType = ComputeType.product)
    (hne : (childIds orig node.id).filterMap (findId m) ≠ []) :
    (recomputeNode orig m node).value =
      (((childIds orig node.id).filterMap (findId m)).map (fun c => c.value)).prod := by
  have hlen : ((sortByOrder ((childIds orig node.id).filterMap (findId m))).map
      (fun c => c.value)).length > 0 := by
    have hperm := sortByOrder_perm ((childIds orig node.id).filterMap (findId m))
    rw [List.length_map, hperm.length_eq]
    exact List.length_pos.mpr hne
  unfold recomputeNode
  dsimp only
  rw [if_pos hlen]
  have hperm := (sortByOrder_perm ((childIds orig node.id).filterMap (findId m))).map
    (fun c => c.value)
  split <;> rename_i hmatch <;> rw [hct] at hmatch
  · cases hmatch
  · dsimp only
    rw [foldl_mul_eq, one_mul]
    exact hperm.prod_eq
  · cases hmatch

theorem recomputeNode_of_input {orig m : List TreeNode} {node : TreeNode}
    (hct : node.computeType = ComputeType.input) :
    recomputeNode orig m node = node := by
  unfold recomputeNode
  dsimp only
  split
  · split
    all_goals rename_i hmatch
    · cases hct.symm.trans hmatch
    · cases hct.symm.trans hmatch
    · rfl
  · rfl

/-! ### Chain step lemmas -/

theorem ancChain_step {m : List TreeNode} {fuel : Nat} {cid : String} {node : TreeNode}
    (hf : findId m cid = some node) :
    ancChain m (fuel + 1) (some cid) = cid :: ancChain m fuel node.parentId := by
  simp [ancChain, hf]

theorem visitedChain_step {m : List TreeNode} {fuel : Nat} {cid : String} {node : TreeNode}
    (hf : findId m cid = some node) (hp : node.pinned = false) :
    visitedChain m (fuel + 1) (some cid) = cid :: visitedChain m fuel node.parentId := by
  simp [visitedChain, hf, hp]

theorem mem_childIds {orig : List TreeNode} {cid c : String} (h : c ∈ childIds orig cid) :
    ∃ cn ∈ orig, cn.id = c ∧ cn.parentId = some cid := by
  unfold childIds at h
  rcases List.mem_map.mp h with ⟨cn, hmem, hid⟩
  have h2 := List.mem_filter.mp hmem
  exact ⟨cn, h2.1, hid, by simpa using h2.2⟩

theorem findId_child {m orig : List TreeNode} (hu : UniqueIds m) (hss : SameSkel m orig)
    {cid c : String} (hc : c ∈ childIds orig cid) :
    ∃ cm, findId m c = some cm ∧ cm.parentId = some cid := by
  obtain ⟨cn, hmem, hid, hpid⟩ := mem_childIds hc
  have huo : UniqueIds orig := (uniqueIds_congr hss).mp hu
  have hfo : findId orig c = some cn := hid ▸ findId_of_mem huo hmem
  rcases findId_skel_cases hss c with ⟨_, h2⟩ | ⟨cm, cn', h1, h2, hsk⟩
  · rw [hfo] at h2
    cases h2
  · rw [hfo] at h2
    have hcn : cn' = cn := ((Option.some.injEq _ _).mp h2).symm
    subst hcn
    exact ⟨cm, h1, (skel_parentId hsk).trans hpid⟩

/-! ### The walk specification -/

theorem recalcWalk_spec (orig : List TreeNode) :
    ∀ (fuel : Nat) (m : List TreeNode) (cur : Option String),
      UniqueIds m → SameSkel m orig →
      (ancChain m fuel cur).Nodup →
      (ancChain m fuel cur).length < fuel →
      ∀ x ∈ visitedChain m fuel cur,
        ∃ nd, findId (recalcWalk orig fuel m cur) x = some nd ∧
          (nd.computeType = ComputeType.sum →
            childrenOf (recalcWalk orig fuel m cur) x ≠ [] →
            nd.value = ((childrenOf (recalcWalk orig fuel m cur) x).map (fun c => c.value)).sum) ∧
          (nd.computeType = ComputeType.product →
            childrenOf (recalcWalk orig fuel m cur) x ≠ [] →
            nd.value = ((childrenOf (recalcWalk orig fuel m cur) x).map (fun c => c.value)).prod) ∧
          (childrenOf (recalcWalk orig fuel m cur) x = [] →
            ∃ n₀, findId m x = some n₀ ∧ nd.value = n₀.value) := by
  intro fuel
  induction fuel with
  | zero => intro m cur _ _ _ _ x hx; simp [visitedChain] at hx
  | succ fuel ih =>
    intro m cur hu hss hnd hlen x hx
    cases cur with
    | none => simp [visitedChain] at hx
    | some cid =>
      rcases hf : findId m cid with _ | node
      · rw [show visitedChain m (fuel + 1) (some cid) = [] from by simp [visitedChain, hf]] at hx
        simp at hx
      · rcases hp : node.pinned with _ | _
        swap
        · rw [show visitedChain m (fuel + 1) (some cid) = [] from by
            simp [visitedChain, hf, hp]] at hx
          simp at hx
        · -- the walk takes a step through `cid`
          have hnid : node.id = cid := (findId_mem hf).2
          have hskn : skel (recomputeNode orig m node) = skel node := skel_recomputeNode orig m node
          have hpid : (recomputeNode orig m node).parentId = node.parentId := skel_parentId hskn
          have hid' : (recomputeNode orig m node).id = cid := (skel_id hskn).trans hnid
          have hss' : SameSkel (mapWrite m (recomputeNode orig m node)) m :=
            sameSkel_mapWrite hu hf hskn
          have hu' : UniqueIds (mapWrite m (recomputeNode orig m node)) := uniqueIds_mapWrite hu _
          have hssorig' : SameSkel (mapWrite m (recomputeNode orig m node)) orig := hss'.trans hss
          rw [ancChain_step hf] at hnd hlen
          have hndtail : (ancChain m fuel node.parentId).Nodup := (List.nodup_cons.mp hnd).2
          have hcidnot : cid ∉ ancChain m fuel node.parentId := (List.nodup_cons.mp hnd).1
          have hlentail : (ancChain m fuel node.parentId).length < fuel := by
            simp only [List.length_cons] at hlen
            omega
          have hanc' : ancChain (mapWrite m (recomputeNode orig m node)) fuel
              (recomputeNode orig m node).parentId = ancChain m fuel node.parentId := by
            rw [ancChain_congr hss', hpid]
          have hvis' : visitedChain (mapWrite m (recomputeNode orig m node)) fuel
              (recomputeNode orig m node).parentId = visitedChain m fuel node.parentId := by
            rw [visitedChain_congr hss', hpid]
          rw [visitedChain_step hf hp] at hx
          rw [recalcWalk_step hf hp]
          -- every child of `cid` is distinct from `cid` and never revisited
          have hchild_ne : ∀ c ∈ childIds orig cid, c ≠ cid := by
            intro c hc hcc
            subst hcc
            obtain ⟨cm, hcm, hcmp⟩ := findId_child hu hss hc
            have hcmnode : cm = node := by
              rw [hcm] at hf
              exact (Option.some.injEq _ _).mp hf
            subst hcmnode
            obtain ⟨f', rfl⟩ : ∃ f', fuel = f' + 1 := ⟨fuel - 1, by omega⟩
            rw [hcmp, ancChain_step hf] at hcidnot
            exact hcidnot (List.mem_cons_self _ _)
          have hchild_not_vis : ∀ c ∈ childIds orig cid,
              c ∉ visitedChain (mapWrite m (recomputeNode orig m node)) fuel
                (recomputeNode orig m node).parentId := by
            intro c hc hvis
            rw [hvis'] at hvis
            have hmemanc : c ∈ ancChain m fuel node.parentId := (mem_visitedChain hvis).1
            obtain ⟨cm, hcm, hcmp⟩ := findId_child hu hss hc
            exact hcidnot (ancChain_closed hlentail c hmemanc cm hcm cid node hcmp hf)
          rcases List.mem_cons.mp hx with hxeq | hx'
          · -- the node written at this step
            have hxeq' : cid = x := hxeq.symm
            subst hxeq'
            have hcidnotvis : cid ∉ visitedChain (mapWrite m (recomputeNode orig m node)) fuel
                (recomputeNode orig m node).parentId := by
              rw [hvis']
              intro hmem
              exact hcidnot (mem_visitedChain hmem).1
            have hfind_r : findId (recalcWalk orig fuel (mapWrite m (recomputeNode orig m node))
                (recomputeNode orig m node).parentId) cid = some (recomputeNode orig m node) := by
              rw [recalcWalk_frame orig fuel _ _ cid hu' hcidnotvis]
              exact findId_mapWrite_self hf hid'
            have hur : UniqueIds (recalcWalk orig fuel (mapWrite m (recomputeNode orig m node))
                (recomputeNode orig m node).parentId) := uniqueIds_recalcWalk hu'
            have hssr : SameSkel (recalcWalk orig fuel (mapWrite m (recomputeNode orig m node))
                (recomputeNode orig m node).parentId) orig :=
              (sameSkel_recalcWalk orig fuel _ _ hu').trans hssorig'
            have hchildren : childrenOf (recalcWalk orig fuel
                (mapWrite m (recomputeNode orig m node))
                (recomputeNode orig m node).parentId) cid = childrenOf m cid := by
              rw [← childLookup_eq hur hssr cid, ← childLookup_eq hu hss cid]
              refine List.filterMap_congr ?_
              intro c hc
              rw [recalcWalk_frame orig fuel _ _ c hu' (hchild_not_vis c hc)]
              exact findId_mapWrite_ne (by rw [hid']; exact (hchild_ne c hc).symm)
            have hchId : childIds orig cid = (childrenOf m cid).map (fun c => c.id) := by
              rw [childIds_congr hss.symm cid]
              rfl
            refine ⟨recomputeNode orig m node, hfind_r, ?_, ?_, ?_⟩
            · intro hct hne
              rw [hchildren] at hne ⊢
              have hfm : (childIds orig node.id).filterMap (findId m) = childrenOf m cid := by
                rw [hnid]
                exact childLookup_eq hu hss cid
              have hct' : node.computeType = ComputeType.sum := by
                rw [← skel_computeType hskn]
                exact hct
              rw [recomputeNode_value_sum hct' (by rw [hfm]; exact hne), hfm]
            · intro hct hne
              rw [hchildren] at hne ⊢
              have hfm : (childIds orig node.id).filterMap (findId m) = childrenOf m cid := by
                rw [hnid]
                exact childLookup_eq hu hss cid
              have hct' : node.computeType = ComputeType.product := by
                rw [← skel_computeType hskn]
                exact hct
              rw [recomputeNode_value_prod hct' (by rw [hfm]; exact hne), hfm]
            · intro hemp
              rw [hchildren] at hemp
              have hfm : (childIds orig node.id).filterMap (findId m) = [] := by
                rw [hnid, childLookup_eq hu hss cid]
                exact hemp
              refine ⟨node, hf, ?_⟩
              rw [recomputeNode_of_empty hfm]
          · -- a node written later in the walk
            have hx'' : x ∈ visitedChain (mapWrite m (recomputeNode orig m node)) fuel
                (recomputeNode orig m node).parentId := by
              rw [hvis']
              exact hx'
            have hxne : x ≠ cid := by
              intro he
              subst he
              exact hcidnot (mem_visitedChain hx').1
            obtain ⟨nd, hfind, c1, c2, c3⟩ := ih (mapWrite m (recomputeNode orig m node))
              (recomputeNode orig m node).parentId hu' hssorig'
              (by rw [hanc']; exact hndtail) (by rw [hanc']; exact hlentail) x hx''
            refine ⟨nd, hfind, c1, c2, ?_⟩
            intro hemp
            obtain ⟨n₀, hn₀, hv⟩ := c3 hemp
            rw [findId_mapWrite_ne (by rw [hid']; exact hxne.symm)] at hn₀
            exact ⟨n₀, hn₀, hv⟩

/-! ### From the walk to `recalculate` -/

theorem buildNodeMap_self {nodes : List TreeNode} (hu : UniqueIds nodes) :
    buildNodeMap nodes = nodes := by
  suffices H : ∀ (l acc : List TreeNode), ((acc ++ l).map (fun n => n.id)).Nodup →
      l.foldl mapInsert acc = acc ++ l by
    simpa using H nodes [] (by simpa using hu)
  intro l
  induction l with
  | nil => intro acc _; simp
  | cons n t ih =>
    intro acc hnd
    have hrearr : acc ++ n :: t = (acc ++ [n]) ++ t := by simp
    have hnotin : acc.any (fun x => x.id == n.id) = false := by
      rcases hany : acc.any (fun x => x.id == n.id) with _ | _
      · rfl
      · exfalso
        rcases List.any_eq_true.mp hany with ⟨x, hx, hxe⟩
        have hxid : x.id = n.id := by simpa using hxe
        rw [List.map_append] at hnd
        have hdisj := (List.nodup_append.mp hnd).2.2
        exact hdisj (List.mem_map_of_mem _ hx) (by rw [hxid]; simp)
    have hins : mapInsert acc n = acc ++ [n] := by
      unfold mapInsert
      rw [if_neg (by simp [hnotin])]
    show t.foldl mapInsert (mapInsert acc n) = acc ++ n :: t
    rw [hins, hrearr]
    exact ih (acc ++ [n]) (by rw [← hrearr]; exact hnd)

theorem recalculate_eq_walk {nodes : List TreeNode} {changedId : String} {n : TreeNode}
    (hu : UniqueIds nodes) (hf : findId nodes changedId = some n) :
    recalculate nodes changedId = recalcWalk nodes (nodes.length + 1) nodes n.parentId := by
  unfold recalculate
  rw [buildNodeMap_self hu]
  simp only [hf]

theorem recalculate_eq_of_none {nodes : List TreeNode} {changedId : String}
    (hu : UniqueIds nodes) (hf : findId nodes changedId = none) :
    recalculate nodes changedId = nodes := by
  unfold recalculate
  rw [buildNodeMap_self hu]
  simp only [hf]

theorem chain_facts {nodes : List TreeNode} {changedId : String} {n : TreeNode}
    (hnd : (fullChain nodes changedId).Nodup) (hf : findId nodes changedId = some n) :
    (ancChain nodes (nodes.length + 1) n.parentId).Nodup ∧
      (ancChain nodes (nodes.length + 1) n.parentId).length < nodes.length + 1 ∧
      changedId ∉ ancChain nodes (nodes.length + 1) n.parentId := by
  have hstep : fullChain nodes changedId = changedId :: ancChain nodes nodes.length n.parentId :=
    ancChain_step hf
  have h1 : (fullChain nodes changedId).length ≤ nodes.length := ancChain_length_le hnd
  rw [hstep] at hnd h1
  have htail_nd : (ancChain nodes nodes.length n.parentId).Nodup := (List.nodup_cons.mp hnd).2
  have hnotin : changedId ∉ ancChain nodes nodes.length n.parentId := (List.nodup_cons.mp hnd).1
  have hlt : (ancChain nodes nodes.length n.parentId).length < nodes.length := by
    simp only [List.length_cons] at h1
    omega
  have hstable : ancChain nodes (nodes.length + 1) n.parentId =
      ancChain nodes nodes.length n.parentId := ancChain_stable hlt (by omega)
  rw [hstable]
  exact ⟨htail_nd, by omega, hnotin⟩

theorem recalculate_frame {nodes : List TreeNode} {changedId : String}
    (hu : UniqueIds nodes) {x : String} (hx : x ∉ visitedIds nodes changedId) :
    findId (recalculate nodes changedId) x = findId nodes x := by
  rcases hf : findId nodes changedId with _ | n
  · rw [recalculate_eq_of_none hu hf]
  · rw [recalculate_eq_walk hu hf]
    refine recalcWalk_frame nodes (nodes.length + 1) nodes n.parentId x hu ?_
    intro hmem
    apply hx
    unfold visitedIds
    rw [hf]
    exact hmem

theorem recalculate_sameSkel {nodes : List TreeNode} (changedId : String)
    (hu : UniqueIds nodes) : SameSkel (recalculate nodes changedId) nodes := by
  rcases hf : findId nodes changedId with _ | n
  · rw [recalculate_eq_of_none hu hf]
    rfl
  · rw [recalculate_eq_walk hu hf]
    exact sameSkel_recalcWalk nodes (nodes.length + 1) nodes n.parentId hu

theorem mem_visitedIds {nodes : List TreeNode} {changedId x : String}
    (hx : x ∈ visitedIds nodes changedId) :
    x ∈ strictAncestors nodes changedId ∧ pinnedAt nodes x = false := by
  unfold visitedIds at hx
  unfold strictAncestors
  rcases hf : findId nodes changedId with _ | n
  · rw [hf] at hx
    simp at hx
  · rw [hf] at hx
    exact mem_visitedChain hx

/-- Shared specification of `recalculate` on the ids its walk rewrites:
claims C1 and C9 both draw on it. -/
theorem recalculate_visited_spec (nodes : List TreeNode) (changedId : String)
    (hu : UniqueIds nodes) (hnd : (fullChain nodes changedId).Nodup) :
    ∀ x ∈ visitedIds nodes changedId,
      ∃ nd, findId (recalculate nodes changedId) x = some nd ∧
        (nd.computeType = ComputeType.sum →
          childrenOf (recalculate nodes changedId) x ≠ [] →
          nd.value = ((childrenOf (recalculate nodes changedId) x).map (fun c => c.value)).sum) ∧
        (nd.computeType = ComputeType.product →
          childrenOf (recalculate nodes changedId) x ≠ [] →
          nd.value = ((childrenOf (recalculate nodes changedId) x).map (fun c => c.value)).prod) ∧
        (childrenOf (recalculate nodes changedId) x = [] →
          ∃ n₀, findId nodes x = some n₀ ∧ nd.value = n₀.value) := by
  intro x hx
  rcases hf : findId nodes changedId with _ | n
  · unfold visitedIds at hx
    rw [hf] at hx
    simp at hx
  · obtain ⟨hcnd, hclen, _⟩ := chain_facts hnd hf
    have hx' : x ∈ visitedChain nodes (nodes.length + 1) n.parentId := by
      unfold visitedIds at hx
      rwa [hf] at hx
    rw [recalculate_eq_walk hu hf]
    exact recalcWalk_spec nodes (nodes.length + 1) nodes n.parentId hu rfl hcnd hclen x hx'

/-! ### Claim C1: fold semantics at every visited ancestor -/

/-- Claim C1: at each non-pinned ancestor the walk of `recalculate`
visits, a `sum` node with a non-empty child list ends up carrying the
arithmetic sum of its direct children's resulting values (negative
contributions included), a `product` node their product (fold seeded
with 1), and a node with no children keeps its input value. -/
theorem claim_C1 (nodes : List TreeNode) (changedId : String)
    (hu : UniqueIds nodes) (hnd : (fullChain nodes changedId).Nodup) :
    ∀ x ∈ visitedIds nodes changedId,
      ∃ nd, findId (recalculate nodes changedId) x = some nd ∧
        (nd.computeType = ComputeType.sum →
          childrenOf (recalculate nodes changedId) x ≠ [] →
          nd.value = ((childrenOf (recalculate nodes changedId) x).map (fun c => c.value)).sum) ∧
        (nd.computeType = ComputeType.product →
          childrenOf (recalculate nodes changedId) x ≠ [] →
          nd.value = ((childrenOf (recalculate nodes changedId) x).map (fun c => c.value)).prod) ∧
        (childrenOf (recalculate nodes changedId) x = [] →
          ∃ n₀, findId nodes x = some n₀ ∧ nd.value = n₀.value) :=
  recalculate_visited_spec nodes changedId hu hnd

theorem claim_C1_witness :
    UniqueIds demoEdited ∧ (fullChain demoEdited "D").Nodup ∧
    "A" ∈ visitedIds demoEdited "D" ∧
    (∃ nd, findId (recalculate demoEdited "D") "A" = some nd ∧
      (nd.computeType = ComputeType.sum →
        childrenOf (recalculate demoEdited "D") "A" ≠ [] →
        nd.value = ((childrenOf (recalculate demoEdited "D") "A").map (fun c => c.value)).sum) ∧
      (nd.computeType = ComputeType.product →
        childrenOf (recalculate demoEdited "D") "A" ≠ [] →
        nd.value = ((childrenOf (recalculate demoEdited "D") "A").map (fun c => c.value)).prod) ∧
      (childrenOf (recalculate demoEdited "D") "A" = [] →
        ∃ n₀, findId demoEdited "A" = some n₀ ∧ nd.value = n₀.value)) :=
  ⟨by decide, by decide, by decide,
    claim_C1 demoEdited "D" (by decide) (by decide) "A" (by decide)⟩

/-! ### Claim C2: propagation halts at the first pinned ancestor -/

/-- Claim C2: on a cycle-free collection the upward walk stops at the
first pinned ancestor — that ancestor and every ancestor strictly above
it (pinned or not) are left exactly as they were in the input. -/
theorem claim_C2 (nodes : List TreeNode) (changedId : String)
    (hu : UniqueIds nodes) (hnd : (fullChain nodes changedId).Nodup) :
    ∀ x ∈ (strictAncestors nodes changedId).dropWhile (fun i => !(pinnedAt nodes i)),
      findId (recalculate nodes changedId) x = findId nodes x := by
  intro x hx
  rcases hf : findId nodes changedId with _ | n
  · rw [recalculate_eq_of_none hu hf]
  · have hstrict : strictAncestors nodes changedId =
        ancChain nodes (nodes.length + 1) n.parentId := by
      unfold strictAncestors
      rw [hf]
    obtain ⟨hcnd, _, _⟩ := chain_facts hnd hf
    refine recalculate_frame hu ?_
    intro hvis
    have hv' : x ∈ visitedChain nodes (nodes.length + 1) n.parentId := by
      unfold visitedIds at hvis
      rwa [hf] at hvis
    rw [visitedChain_eq_takeWhile] at hv'
    rw [hstrict] at hx
    have hnd2 : ((ancChain nodes (nodes.length + 1) n.parentId).takeWhile
        (fun i => !(pinnedAt nodes i)) ++
        (ancChain nodes (nodes.length + 1) n.parentId).dropWhile
        (fun i => !(pinnedAt nodes i))).Nodup := by
      rw [List.takeWhile_append_dropWhile]
      exact hcnd
    exact (List.disjoint_of_nodup_append hnd2) hv' hx

theorem claim_C2_witness :
    UniqueIds demoPinned ∧ (fullChain demoPinned "D").Nodup ∧
    "A" ∈ (strictAncestors demoPinned "D").dropWhile (fun i => !(pinnedAt demoPinned i)) ∧
    findId (recalculate demoPinned "D") "A" = findId demoPinned "A" :=
  ⟨by decide, by decide, by decide,
    claim_C2 demoPinned "D" (by decide) (by decide) "A" (by decide)⟩

/-! ### Claim C3: frame — count, skeleton, and value changes -/

/-- Claim C3: on a cycle-free collection `recalculate` keeps the node
count, keeps every node's non-value fields (`id`, `parentId`,
`computeType`, `pinned`, and the rest of the skeleton), and changes a
value only on non-pinned strict ancestors of the changed node. -/
theorem claim_C3 (nodes : List TreeNode) (changedId : String)
    (hu : UniqueIds nodes) (hnd : (fullChain nodes changedId).Nodup) :
    (recalculate nodes changedId).length = nodes.length ∧
    (recalculate nodes changedId).map skel = nodes.map skel ∧
    ∀ (x : String) (n₁ n₂ : TreeNode), findId nodes x = some n₁ →
      findId (recalculate nodes changedId) x = some n₂ → n₁.value ≠ n₂.value →
      x ∈ strictAncestors nodes changedId ∧ pinnedAt nodes x = false := by
  have hss := recalculate_sameSkel changedId hu
  refine ⟨?_, hss, ?_⟩
  · have h1 := congrArg List.length hss
    simpa using h1
  · intro x n₁ n₂ h₁ h₂ hv
    by_cases hvis : x ∈ visitedIds nodes changedId
    · exact mem_visitedIds hvis
    · exfalso
      rw [recalculate_frame hu hvis, h₁] at h₂
      have hn : n₁ = n₂ := (Option.some.injEq _ _).mp h₂
      exact hv (by rw [hn])

theorem claim_C3_witness :
    UniqueIds demoEdited ∧ (fullChain demoEdited "D").Nodup ∧
    (recalculate demoEdited "D").length = demoEdited.length :=
  ⟨by decide, by decide, (claim_C3 demoEdited "D" (by decide) (by decide)).1⟩

/-! ### Claim C9: pinning shields a node from recomputation, not from edits -/

theorem setValue_eq_mapWrite {m : List TreeNode} (hu : UniqueIds m) {nid : String}
    {n : TreeNode} (hf : findId m nid = some n) (v : ℚ) :
    m.map (fun q => if q.id == nid then { q with value := v } else q) =
      mapWrite m { n with value := v } := by
  unfold mapWrite
  refine List.map_congr_left ?_
  intro x hx
  have hnidid : ({ n with value := v } : TreeNode).id = nid := (findId_mem hf).2
  by_cases hc : (x.id == nid) = true
  · have hxn : x = n := List.inj_on_of_nodup_map hu hx (findId_mem hf).1
      (by rw [beq_iff_eq.mp hc, (findId_mem hf).2])
    rw [if_pos hc, if_pos (by rw [hnidid]; exact hc), hxn]
  · rw [if_neg hc, if_neg (by rw [hnidid]; exact hc)]

/-- Claim C9: pinning does not protect a node from direct edits, only
from recomputation.  Editing a pinned node still writes its value, the
walk still starts at the node's parent (the pin of the edited node does
not stop propagation), and a non-pinned `sum` parent really is
recomputed from its children. -/
theorem claim_C9 (st : TreeState) (nid : String) (v : ℚ) (n parent : TreeNode)
    (hu : UniqueIds st.nodes)
    (hf : findId st.nodes nid = some n)
    (hpin : n.pinned = true)
    (hnd : (fullChain st.nodes nid).Nodup)
    (hp : n.parentId = some parent.id)
    (hpar : parent ∈ st.nodes)
    (hppin : parent.pinned = false) :
    (∃ nd, findId (updateNodeValue st nid v).nodes nid = some nd ∧ nd.value = v) ∧
    parent.id ∈ visitedIds
      (st.nodes.map (fun q => if q.id == nid then { q with value := v } else q)) nid ∧
    (parent.computeType = ComputeType.sum →
      childrenOf (updateNodeValue st nid v).nodes parent.id ≠ [] →
      ∃ pd, findId (updateNodeValue st nid v).nodes parent.id = some pd ∧
        pd.value =
          ((childrenOf (updateNodeValue st nid v).nodes parent.id).map (fun c => c.value)).sum) := by
  have hU : st.nodes.map (fun q => if q.id == nid then { q with value := v } else q) =
      mapWrite st.nodes { n with value := v } := setValue_eq_mapWrite hu hf v
  set n' : TreeNode := { n with value := v } with hn'
  have hskn' : skel n' = skel n := rfl
  have hssU : SameSkel (mapWrite st.nodes n') st.nodes := sameSkel_mapWrite hu hf hskn'
  have huU : UniqueIds (mapWrite st.nodes n') := uniqueIds_mapWrite hu n'
  have hnid : n.id = nid := (findId_mem hf).2
  have hfU : findId (mapWrite st.nodes n') nid = some n' :=
    findId_mapWrite_self hf ((rfl : n'.id = n.id).trans hnid)
  have hlenU : (mapWrite st.nodes n').length = st.nodes.length := by
    unfold mapWrite
    simp
  have hfullU : fullChain (mapWrite st.nodes n') nid = fullChain st.nodes nid := by
    unfold fullChain
    rw [ancChain_congr hssU, hlenU]
  have hndU : (fullChain (mapWrite st.nodes n') nid).Nodup := by
    rw [hfullU]
    exact hnd
  have hnodes_eq : (updateNodeValue st nid v).nodes = recalculate (mapWrite st.nodes n') nid := by
    show recalculate (st.nodes.map (fun q => if q.id == nid then { q with value := v } else q))
      nid = recalculate (mapWrite st.nodes n') nid
    rw [hU]
  obtain ⟨_, _, hnotin⟩ := chain_facts hnd hf
  have hpne : parent.id ≠ nid := by
    intro he
    have hfp : findId st.nodes parent.id = some parent := findId_of_mem hu hpar
    rw [he, hf] at hfp
    have : n = parent := (Option.some.injEq _ _).mp hfp
    rw [this, hppin] at hpin
    cases hpin
  have hn'ne : n'.id ≠ parent.id := by
    show n.id ≠ parent.id
    rw [hnid]
    exact fun he => hpne he.symm
  have hfpU : findId (mapWrite st.nodes n') parent.id = some parent := by
    rw [findId_mapWrite_ne hn'ne]
    exact findId_of_mem hu hpar
  have hvisU : parent.id ∈ visitedIds (mapWrite st.nodes n') nid := by
    have hppn' : n'.parentId = some parent.id := hp
    simp only [visitedIds, hfU, hppn', hp]
    rw [visitedChain_step hfpU hppin]
    exact List.mem_cons_self _ _
  refine ⟨?_, ?_, ?_⟩
  · -- the edited value survives: nid is never rewritten by the walk
    have hnidnotvis : nid ∉ visitedIds (mapWrite st.nodes n') nid := by
      intro hmem
      have h1 := (mem_visitedIds hmem).1
      have hppn' : n'.parentId = some parent.id := hp
      simp only [strictAncestors, hfU, hppn', hp] at h1
      rw [ancChain_congr hssU, hlenU, ← hp] at h1
      exact hnotin h1
    refine ⟨n', ?_, rfl⟩
    rw [hnodes_eq, recalculate_frame huU hnidnotvis]
    exact hfU
  · rw [hU]
    exact hvisU
  · intro hct hne
    obtain ⟨nd, hfind, c1, _, _⟩ :=
      recalculate_visited_spec (mapWrite st.nodes n') nid huU hndU parent.id hvisU
    have hndct : nd.computeType = parent.computeType := by
      have hssr : SameSkel (recalculate (mapWrite st.nodes n') nid) st.nodes :=
        (recalculate_sameSkel nid huU).trans hssU
      rcases findId_skel_cases hssr parent.id with ⟨ha, _⟩ | ⟨a, b, ha, hb, hsk⟩
      · rw [ha] at hfind
        cases hfind
      · rw [ha] at hfind
        have hnda : nd = a := ((Option.some.injEq _ _).mp hfind).symm
        have hfp : findId st.nodes parent.id = some parent := findId_of_mem hu hpar
        rw [hfp] at hb
        have hbp : b = parent := (Option.some.injEq _ _).mp hb.symm
        rw [hnda, skel_computeType hsk, hbp]
    rw [hnodes_eq] at hne ⊢
    exact ⟨nd, hfind, c1 (by rw [hndct]; exact hct) hne⟩

theorem claim_C9_witness :
    UniqueIds stPinLeaf.nodes ∧
    findId stPinLeaf.nodes "q" = some (mkNode "q" (some "p") 3 ComputeType.input true 0) ∧
    (mkNode "q" (some "p") 3 ComputeType.input true 0).pinned = true ∧
    (fullChain stPinLeaf.nodes "q").Nodup ∧
    (mkNode "q" (some "p") 3 ComputeType.input true 0).parentId =
      some (mkNode "p" none 3 ComputeType.sum).id ∧
    mkNode "p" none 3 ComputeType.sum ∈ stPinLeaf.nodes ∧
    (mkNode "p" none 3 ComputeType.sum).pinned = false ∧
    (∃ nd, findId (updateNodeValue stPinLeaf "q" 7).nodes "q" = some nd ∧ nd.value = 7) :=
  ⟨by decide, by decide, by decide, by decide, by decide, by decide, by decide,
    (claim_C9 stPinLeaf "q" 7 (mkNode "q" (some "p") 3 ComputeType.input true 0)
      (mkNode "p" none 3 ComputeType.sum) (by decide) (by decide) (by decide) (by decide)
      (by decide) (by decide) (by decide)).1⟩

/-! ### Visibility resolver lemmas -/

theorem hiddenWalk_none (nodes : List TreeNode) : ∀ fuel, hiddenWalk nodes fuel none = false
  | 0 => rfl
  | _ + 1 => rfl

theorem findId_reverse {nodes : List TreeNode} (hu : UniqueIds nodes) (x : String) :
    nodes.reverse.find? (fun n => n.id == x) = findId nodes x := by
  rcases hf : findId nodes x with _ | n
  · have hf' : List.find? (fun n => n.id == x) nodes = none := hf
    have h' := List.find?_eq_none.mp hf'
    exact List.find?_eq_none.mpr (fun q hq => h' q (List.mem_reverse.mp hq))
  · rcases hr : nodes.reverse.find? (fun n => n.id == x) with _ | d
    · exfalso
      have h' := List.find?_eq_none.mp hr
      exact h' n (List.mem_reverse.mpr (findId_mem hf).1) (by simp [(findId_mem hf).2])
    · have hdm : d ∈ nodes := List.mem_reverse.mp (List.mem_of_find?_eq_some hr)
      have hdi : d.id = x := by simpa using List.find?_some hr
      have hdn : d = n := List.inj_on_of_nodup_map hu hdm (findId_mem hf).1
        (by rw [hdi, (findId_mem hf).2])
      exact hr.trans (congrArg some hdn)

theorem parentMapGet_eq {nodes : List TreeNode} (hu : UniqueIds nodes) (cid : String) :
    parentMapGet nodes cid =
      match findId nodes cid with
      | none => none
      | some n => n.parentId := by
  unfold parentMapGet
  rw [show nodes.reverse.find? (fun n => n.id == cid) = findId nodes cid from
    findId_reverse hu cid]

theorem collapsedHas_absent {nodes : List TreeNode} {cid : String}
    (hf : findId nodes cid = none) : collapsedHas nodes cid = false := by
  rcases hany : collapsedHas nodes cid with _ | _
  · rfl
  · exfalso
    rcases List.any_eq_true.mp hany with ⟨q, hq, hqe⟩
    have h1 : q.collapsed = true ∧ (q.id == cid) = true := by simpa using hqe
    have hf' : List.find? (fun n => n.id == cid) nodes = none := hf
    exact absurd h1.2 (by simpa using List.find?_eq_none.mp hf' q hq)

theorem collapsedHas_eq {nodes : List TreeNode} (hu : UniqueIds nodes) {a : String}
    {na : TreeNode} (hf : findId nodes a = some na) :
    collapsedHas nodes a = na.collapsed := by
  rcases hc : na.collapsed with _ | _
  · rcases hany : collapsedHas nodes a with _ | _
    · rfl
    · exfalso
      rcases List.any_eq_true.mp hany with ⟨q, hq, hqe⟩
      have h1 : q.collapsed = true ∧ (q.id == a) = true := by simpa using hqe
      have hqna : q = na := List.inj_on_of_nodup_map hu hq (findId_mem hf).1
        (by rw [beq_iff_eq.mp h1.2, (findId_mem hf).2])
      rw [hqna, hc] at h1
      cases h1.1
  · exact List.any_eq_true.mpr ⟨na, (findId_mem hf).1, by simp [hc, (findId_mem hf).2]⟩

theorem hiddenWalk_eq_any {nodes : List TreeNode} (hu : UniqueIds nodes) :
    ∀ (fuel : Nat) (c : Option String),
      hiddenWalk nodes fuel c = (ancChain nodes fuel c).any (fun a => collapsedHas nodes a) := by
  intro fuel
  induction fuel with
  | zero => intro c; rfl
  | succ fuel ih =>
    intro c
    cases c with
    | none => rfl
    | some cid =>
      rcases hf : findId nodes cid with _ | n
      · have h1 : collapsedHas nodes cid = false := collapsedHas_absent hf
        have h2 : parentMapGet nodes cid = none := by
          rw [parentMapGet_eq hu]
          simp [hf]
        simp [hiddenWalk, ancChain, hf, h1, h2, hiddenWalk_none]
      · have h2 : parentMapGet nodes cid = n.parentId := by
          rw [parentMapGet_eq hu]
          simp [hf]
        rcases hc : collapsedHas nodes cid with _ | _
        · simp [hiddenWalk, ancChain, hf, hc, h2, ih]
        · simp [hiddenWalk, ancChain, hf, hc]

theorem mem_ancChain_found {m : List TreeNode} :
    ∀ {fuel : Nat} {c : Option String} {x : String}, x ∈ ancChain m fuel c →
      ∃ nx, findId m x = some nx := by
  intro fuel
  induction fuel with
  | zero => intro c x hx; simp [ancChain] at hx
  | succ fuel ih =>
    intro c x hx
    cases c with
    | none => simp [ancChain] at hx
    | some cid =>
      rcases hf : findId m cid with _ | n
      · rw [show ancChain m (fuel + 1) (some cid) = [] from by simp [ancChain, hf]] at hx
        simp at hx
      · rw [ancChain_step hf] at hx
        rcases List.mem_cons.mp hx with rfl | hx'
        · exact ⟨n, hf⟩
        · exact ih hx'

theorem mem_computeVisible {nodes : List TreeNode} (hu : UniqueIds nodes) {n : TreeNode}
    (hn : n ∈ nodes) :
    n.id ∈ computeVisible nodes ↔
      hiddenWalk nodes (nodes.length + 1) n.parentId = false := by
  unfold computeVisible
  constructor
  · intro h
    rcases List.mem_map.mp h with ⟨q, hq, hqid⟩
    have hqf := List.mem_filter.mp hq
    have hqn : q = n := List.inj_on_of_nodup_map hu hqf.1 hn hqid
    have h2 := hqf.2
    rw [hqn] at h2
    simpa using h2
  · intro h
    exact List.mem_map.mpr ⟨n, List.mem_filter.mpr ⟨hn, by simp [h]⟩, rfl⟩

theorem any_congr_on {l : List α} {p q : α → Bool} (h : ∀ a ∈ l, p a = q a) :
    l.any p = l.any q := by
  induction l with
  | nil => rfl
  | cons a t ih =>
    simp only [List.any_cons]
    rw [h a (List.mem_cons_self _ _), ih (fun b hb => h b (List.mem_cons_of_mem _ hb))]

theorem find?_id_map {f : TreeNode → TreeNode} (hid : ∀ q, (f q).id = q.id) (x : String) :
    ∀ l : List TreeNode,
      (l.map f).find? (fun n => n.id == x) = Option.map f (l.find? (fun n => n.id == x)) := by
  intro l
  induction l with
  | nil => rfl
  | cons q t ih =>
    show List.find? (fun n => n.id == x) (f q :: t.map f) =
      Option.map f (List.find? (fun n => n.id == x) (q :: t))
    by_cases hc : (q.id == x) = true
    · have hcf : ((f q).id == x) = true := by rw [hid q]; exact hc
      rw [List.find?_cons_of_pos (p := fun (n : TreeNode) => n.id == x) _ hcf,
        List.find?_cons_of_pos (p := fun (n : TreeNode) => n.id == x) _ hc]
      rfl
    · have hcf : ¬ ((f q).id == x) = true := by
        rw [hid q]
        simpa using hc
      rw [List.find?_cons_of_neg (p := fun (n : TreeNode) => n.id == x) _ hcf,
        List.find?_cons_of_neg (p := fun (n : TreeNode) => n.id == x) _ (by simpa using hc)]
      exact ih

theorem parentMapGet_map {f : TreeNode → TreeNode} (hid : ∀ q, (f q).id = q.id)
    (hpid : ∀ q, (f q).parentId = q.parentId) (nodes : List TreeNode) (cid : String) :
    parentMapGet (nodes.map f) cid = parentMapGet nodes cid := by
  unfold parentMapGet
  rw [← List.map_reverse, find?_id_map hid]
  rcases h : nodes.reverse.find? (fun n => n.id == cid) with _ | d
  · simp [h]
  · simp [h, hpid d]

theorem toggle_id (lid : String) (q : TreeNode) :
    (if q.id == lid then { q with collapsed := !q.collapsed } else q).id = q.id := by
  by_cases h : (q.id == lid) = true <;> simp [h]

theorem toggle_parentId (lid : String) (q : TreeNode) :
    (if q.id == lid then { q with collapsed := !q.collapsed } else q).parentId = q.parentId := by
  by_cases h : (q.id == lid) = true <;> simp [h]

theorem collapsedHas_toggle_ne {nodes : List TreeNode} {lid cid : String} (hne : cid ≠ lid) :
    collapsedHas (nodes.map (fun q =>
      if q.id == lid then { q with collapsed := !q.collapsed } else q)) cid =
      collapsedHas nodes cid := by
  unfold collapsedHas
  rw [List.any_map]
  refine any_congr_on ?_
  intro q _
  show (fun n => n.collapsed && n.id == cid)
      (if q.id == lid then { q with collapsed := !q.collapsed } else q) =
    (q.collapsed && (q.id == cid))
  by_cases h : (q.id == lid) = true
  · have hqid : q.id = lid := beq_iff_eq.mp h
    have h2 : (q.id == cid) = false := by
      rw [hqid]
      simpa using Ne.symm hne
    simp [h, h2]
  · simp [h]

theorem parentMapGet_not_leaf {nodes : List TreeNode} {lid : String}
    (hleaf : ∀ c ∈ nodes, c.parentId ≠ some lid) (cid : String) :
    ∀ c2, parentMapGet nodes cid = some c2 → c2 ≠ lid := by
  intro c2 hpg he
  subst he
  unfold parentMapGet at hpg
  rcases h : nodes.reverse.find? (fun n => n.id == cid) with _ | d
  · rw [h] at hpg
    cases hpg
  · rw [h] at hpg
    have hd : d ∈ nodes := List.mem_reverse.mp (List.mem_of_find?_eq_some h)
    exact hleaf d hd hpg

theorem hiddenWalk_toggle_leaf {nodes : List TreeNode} {lid : String}
    (hleaf : ∀ c ∈ nodes, c.parentId ≠ some lid) :
    ∀ (fuel : Nat) (c : Option String), (∀ cid, c = some cid → cid ≠ lid) →
      hiddenWalk (nodes.map (fun q =>
        if q.id == lid then { q with collapsed := !q.collapsed } else q)) fuel c =
        hiddenWalk nodes fuel c := by
  intro fuel
  induction fuel with
  | zero => intro c _; rfl
  | succ fuel ih =>
    intro c hc
    cases c with
    | none => rfl
    | some cid =>
      have hne : cid ≠ lid := hc cid rfl
      have h1 : collapsedHas (nodes.map (fun q =>
          if q.id == lid then { q with collapsed := !q.collapsed } else q)) cid =
          collapsedHas nodes cid := collapsedHas_toggle_ne hne
      have h2 : parentMapGet (nodes.map (fun q =>
          if q.id == lid then { q with collapsed := !q.collapsed } else q)) cid =
          parentMapGet nodes cid :=
        parentMapGet_map (toggle_id lid) (toggle_parentId lid) nodes cid
      have hnext : ∀ c2, parentMapGet nodes cid = some c2 → c2 ≠ lid :=
        parentMapGet_not_leaf hleaf cid
      show (if collapsedHas (nodes.map (fun q =>
          if q.id == lid then { q with collapsed := !q.collapsed } else q)) cid then true
        else hiddenWalk (nodes.map (fun q =>
          if q.id == lid then { q with collapsed := !q.collapsed } else q)) fuel
          (parentMapGet (nodes.map (fun q =>
            if q.id == lid then { q with collapsed := !q.collapsed } else q)) cid)) =
        (if collapsedHas nodes cid then true
          else hiddenWalk nodes fuel (parentMapGet nodes cid))
      rw [h1, h2]
      rcases hcol : collapsedHas nodes cid with _ | _
      · rw [if_neg (by simp), if_neg (by simp)]
        exact ih _ hnext
      · rw [if_pos rfl, if_pos rfl]

theorem computeVisible_toggle_leaf {nodes : List TreeNode} {lid : String}
    (hleaf : ∀ c ∈ nodes, c.parentId ≠ some lid) :
    computeVisible (nodes.map (fun q =>
      if q.id == lid then { q with collapsed := !q.collapsed } else q)) =
      computeVisible nodes := by
  unfold computeVisible
  rw [List.filter_map, List.map_map, List.length_map]
  have hfiltereq : nodes.filter ((fun n => !hiddenWalk (nodes.map (fun q =>
      if q.id == lid then { q with collapsed := !q.collapsed } else q))
      (nodes.length + 1) n.parentId) ∘ (fun q =>
      if q.id == lid then { q with collapsed := !q.collapsed } else q)) =
      nodes.filter (fun n => !hiddenWalk nodes (nodes.length + 1) n.parentId) := by
    refine List.filter_congr ?_
    intro q hq
    have hinv : ∀ cid, q.parentId = some cid → cid ≠ lid := by
      intro cid hcq he
      exact hleaf q hq (by rw [hcq, he])
    show (!hiddenWalk (nodes.map (fun q =>
        if q.id == lid then { q with collapsed := !q.collapsed } else q))
        (nodes.length + 1) ((if q.id == lid then { q with collapsed := !q.collapsed }
          else q).parentId)) =
      (!hiddenWalk nodes (nodes.length + 1) q.parentId)
    rw [toggle_parentId lid q, hiddenWalk_toggle_leaf hleaf (nodes.length + 1) q.parentId hinv]
  rw [hfiltereq]
  refine List.map_congr_left ?_
  intro a _
  exact toggle_id lid a

/-! ### Claim C6: visibility is exactly absence of a collapsed strict ancestor -/

/-- Claim C6: `computeVisible` contains a node iff no strict ancestor of
it carries `collapsed = true`; a node's own flag never hides the node
itself, so toggling collapse on a childless node changes nobody's
visibility. -/
theorem claim_C6 (nodes : List TreeNode) (hu : UniqueIds nodes) :
    (∀ n ∈ nodes, (n.id ∈ computeVisible nodes ↔
      ∀ a ∈ ancChain nodes (nodes.length + 1) n.parentId,
        ∀ na, findId nodes a = some na → na.collapsed = false)) ∧
    (∀ leafId : String, (∀ c ∈ nodes, c.parentId ≠ some leafId) →
      computeVisible (nodes.map (fun q =>
        if q.id == leafId then { q with collapsed := !q.collapsed } else q)) =
        computeVisible nodes) := by
  constructor
  · intro n hn
    rw [mem_computeVisible hu hn, hiddenWalk_eq_any hu]
    constructor
    · intro h a ha na hna
      have h' := List.any_eq_false.mp h a ha
      have := collapsedHas_eq hu hna
      rw [this] at h'
      simpa using h'
    · intro h
      refine List.any_eq_false.mpr ?_
      intro a ha
      obtain ⟨na, hna⟩ := mem_ancChain_found ha
      rw [collapsedHas_eq hu hna, h a ha na hna]
      simp
  · intro leafId hleaf
    exact computeVisible_toggle_leaf hleaf

theorem claim_C6_witness :
    UniqueIds demoNodes ∧ "C" ∈ computeVisible demoNodes :=
  ⟨by decide,
    ((claim_C6 demoNodes (by decide)).1 (mkNode "C" (some "A") 2 ComputeType.input)
      (by decide)).mpr (by decide)⟩

end RevTree
